import Mathlib

/-!
Verification development for the pgm_to_sdf_converter geometry-extraction
pipeline.  The Python sources are shallowly embedded here:

* grids of 8-bit intensities become a `Grid` structure (a height, a width and
  a total value function `Nat → Nat → Nat`);
* numpy float arithmetic (normalisation by 255, probability thresholds,
  component ratios) is modelled with exact rationals `ℚ`;
* binary masks become `Nat → Nat → Bool` functions together with explicit
  dimensions; in-place numpy mutation (the Pass-2 zeroing of the working mask)
  becomes a fold of functional updates;
* the scanline loops of `wall_aggregation_extractor.py` become well-founded
  recursions (`runEnd`, `scanLine`);
* `scipy.ndimage.label` (4-connectivity) is modelled by an executable BFS
  flood fill (`componentOf`) with a canonical-representative presentation of
  the labels; `scipy.ndimage` morphology (median filter with reflect border,
  binary closing with zero border) is translated pointwise;
* the only floating-point computation that a claim's statement touches but
  never evaluates, `boundary_roughness = mean(perimeter/sqrt(size))` compared
  against 10.0, is kept as a real-number proposition `hasGrainyBoundaries`;
  the boolean flag the Python code stores is modelled as an explicit boolean
  argument `grainy` of `enhancePGM`, constrained in each theorem by the
  hypothesis `grainy = true ↔ hasGrainyBoundaries …`.
-/

/-! ## Grids and binarisation (`wall_aggregation_extractor._get_occupied_grid`,
`pgm_enhancer.analyze_map_noise` lines 59-65) -/

/-- A dense 2D grid of intensities, `height × width`, row 0 at the top.
Values outside the rectangle are irrelevant junk (every embedded operation
only reads in-range cells, mirroring the numpy arrays). -/
structure Grid where
  height : Nat
  width : Nat
  val : Nat → Nat → Nat

/-- `image_data.max()`: the maximum intensity over the grid (0 for an empty
grid, as no claim evaluates the maximum of an empty numpy array). -/
def gridMax (g : Grid) : Nat :=
  ((List.range g.height).flatMap
    (fun y => (List.range g.width).map (fun x => g.val y x))).foldr Nat.max 0

/-- The conditional normalisation both modules perform: divide by 255 only
when the grid's maximum value exceeds 1, otherwise use the raw value.
Float32 arithmetic is modelled with exact rationals. -/
def normalizedVal (g : Grid) (y x : Nat) : ℚ :=
  if 1 < gridMax g then (g.val y x : ℚ) / 255 else (g.val y x : ℚ)

/-- `_get_occupied_grid`: occupancy probability is the normalised value when
`negate` is unset and its complement when `negate` is set; a cell is occupied
iff the probability is `>=` the occupied threshold. -/
def getOccupiedGrid (g : Grid) (negate : Bool) (occupiedThresh : ℚ) (y x : Nat) : Bool :=
  let occupancyProb : ℚ :=
    if negate then 1 - normalizedVal g y x else normalizedVal g y x
  decide (occupiedThresh ≤ occupancyProb)

/-- The noise analyzer's occupied mask (`normalized < 0.5`). -/
def analyzerMask (g : Grid) (y x : Nat) : Bool :=
  decide (normalizedVal g y x < 1 / 2)

/-! ## Scanline runs (`_aggregate_horizontal` / `_aggregate_vertical` inner
loops).  `runEnd occ w x` is the `end_x` computed by
`while end_x + 1 < width and grid[y, end_x + 1] == 1: end_x += 1`;
`scanLine occ w x` is the outer `while x < width` loop, returning the list of
maximal runs `(start, end)` (inclusive) found from position `x` on. -/

def runEnd (occ : Nat → Bool) (w x : Nat) : Nat :=
  if h : x + 1 < w ∧ occ (x + 1) = true then runEnd occ w (x + 1) else x
termination_by w - x
decreasing_by
  have hx : x + 1 < w := h.1
  omega

theorem runEnd_ge (occ : Nat → Bool) (w x : Nat) : x ≤ runEnd occ w x := by
  rw [runEnd]
  by_cases h : x + 1 < w ∧ occ (x + 1) = true
  · rw [dif_pos h]
    exact Nat.le_trans (Nat.le_succ x) (runEnd_ge occ w (x + 1))
  · rw [dif_neg h]
termination_by w - x
decreasing_by
  have hx : x + 1 < w := h.1
  omega

def scanLine (occ : Nat → Bool) (w x : Nat) : List (Nat × Nat) :=
  if hx : x < w then
    if occ x = true ∧ (x = 0 ∨ occ (x - 1) = false) then
      (x, runEnd occ w x) :: scanLine occ w (runEnd occ w x + 1)
    else
      scanLine occ w (x + 1)
  else []
termination_by w - x
decreasing_by
  · have := runEnd_ge occ w x
    omega
  · omega

/-! ## Segments.  The Python code passes segments around as dicts; horizontal
segments carry keys `y`, `start_x`, `end_x`, `length_px`, vertical ones carry
`x`, `start_y`, `end_y`, `length_px`; the merger adds the cross-extent keys
(`start_y`/`end_y` for horizontal, `start_x`/`end_x` for vertical).  The
embedding uses one structure:

* `pos`  — the `y` key of a horizontal segment / the `x` key of a vertical one;
* `lo`, `hi` — the always-present extent (`start_x`/`end_x` for horizontal,
  `start_y`/`end_y` for vertical);
* `clo`, `chi` — the optional cross-extent keys (`none` models the key being
  absent from the dict, exactly as produced by the aggregator). -/

inductive SegKind where
  | horizontal
  | vertical
deriving DecidableEq, Repr

structure Segment where
  kind : SegKind
  pos : Nat
  lo : Nat
  hi : Nat
  clo : Option Nat
  chi : Option Nat
  lengthPx : Nat
deriving DecidableEq, Repr

def isHorizontal (s : Segment) : Bool :=
  match s.kind with
  | SegKind.horizontal => true
  | SegKind.vertical => false

def isVertical (s : Segment) : Bool :=
  match s.kind with
  | SegKind.horizontal => false
  | SegKind.vertical => true

/-- `_aggregate_horizontal`: row-by-row maximal runs, rows ascending. -/
def aggregateHorizontal (occ : Nat → Nat → Bool) (h w : Nat) : List Segment :=
  (List.range h).flatMap (fun y =>
    (scanLine (fun x => occ y x) w 0).map (fun p =>
      ⟨SegKind.horizontal, y, p.1, p.2, none, none, p.2 - p.1 + 1⟩))

/-- One step of the Pass-2 zeroing `grid_for_vertical[y, start_x:end_x+1] = 0`. -/
def zeroRange (m : Nat → Nat → Bool) (s : Segment) : Nat → Nat → Bool :=
  fun y x => if y = s.pos ∧ s.lo ≤ x ∧ x ≤ s.hi then false else m y x

/-- The working copy of the mask used by Pass 2: every horizontal segment of
pixel length `> 1` has its cells zeroed (in the order the segments were
produced, mirroring the in-place loop). -/
def gridForVertical (m : Nat → Nat → Bool) (hsegs : List Segment) : Nat → Nat → Bool :=
  hsegs.foldl (fun acc s => if 1 < s.lengthPx then zeroRange acc s else acc) m

/-- `_aggregate_vertical`: column-by-column maximal runs over the working
copy, columns ascending. -/
def aggregateVertical (occ : Nat → Nat → Bool) (h w : Nat) (hsegs : List Segment) :
    List Segment :=
  (List.range w).flatMap (fun x =>
    (scanLine (fun y => gridForVertical occ hsegs y x) h 0).map (fun p =>
      ⟨SegKind.vertical, x, p.1, p.2, none, none, p.2 - p.1 + 1⟩))

/-! ## Segment coverage.  Which cells `(row, col)` a segment dict stands for;
an absent cross-extent key defaults to the segment's own row/column, exactly
as `_segments_to_walls` reads the dicts. -/

def coversB (s : Segment) (c : Nat × Nat) : Bool :=
  match s.kind with
  | SegKind.horizontal =>
      decide (s.clo.getD s.pos ≤ c.1 ∧ c.1 ≤ s.chi.getD s.pos ∧
        s.lo ≤ c.2 ∧ c.2 ≤ s.hi)
  | SegKind.vertical =>
      decide (s.lo ≤ c.1 ∧ c.1 ≤ s.hi ∧
        s.clo.getD s.pos ≤ c.2 ∧ c.2 ≤ s.chi.getD s.pos)

def coveredB (segs : List Segment) (c : Nat × Nat) : Bool :=
  segs.any (fun s => coversB s c)

/-- The coordinate of a cell along a segment kind's cross direction (the row
for horizontal segments, the column for vertical ones). -/
def crossCoord (κ : SegKind) (c : Nat × Nat) : Nat :=
  match κ with
  | SegKind.horizontal => c.1
  | SegKind.vertical => c.2

/-- The coordinate of a cell along a segment kind's main direction. -/
def mainCoord (κ : SegKind) (c : Nat × Nat) : Nat :=
  match κ with
  | SegKind.horizontal => c.2
  | SegKind.vertical => c.1

/-! ## Segment merger (`segment_merger.py`).  `_merge_horizontal_segments`
groups by the `(start_x, end_x)` pair, sorts each group by `y` (Python's sort
is stable), and merges runs of exactly-adjacent rows; `_merge_vertical_segments`
is the same code with `(start_y, end_y)` as the key, `x` as the sort key and
`start_x`/`end_x` as the written cross-extent.  In the field-role presentation
above the two bodies become literally the same function on `Segment`, here
`mergeAligned`; both named wrappers are kept. -/

def extentKey (s : Segment) : Nat × Nat := (s.lo, s.hi)

/-- Insertion into the (insertion-ordered, as a Python dict) group list. -/
def insertIntoGroups :
    List ((Nat × Nat) × List Segment) → Segment → List ((Nat × Nat) × List Segment)
  | [], s => [(extentKey s, [s])]
  | (k, l) :: rest, s =>
      if extentKey s = k then (k, l ++ [s]) :: rest
      else (k, l) :: insertIntoGroups rest s

def groupByExtent (segs : List Segment) : List ((Nat × Nat) × List Segment) :=
  segs.foldl insertIntoGroups []

/-- Stable insertion used by `sortByPos` (insert after equal keys, so the
foldr sort below is stable like Python's `list.sort`). -/
def insertByPos (s : Segment) : List Segment → List Segment
  | [] => [s]
  | t :: rest => if t.pos < s.pos then t :: insertByPos s rest else s :: t :: rest

def sortByPos (l : List Segment) : List Segment := l.foldr insertByPos []

/-- The value of the written cross-extent high key (`current["end_y"]` resp.
`current["end_x"]`); inside a merge run it is always present. -/
def chiv (s : Segment) : Nat := s.chi.getD 0

/-- `current = seg.copy(); current["start_y"] = current["y"];
current["end_y"] = current["y"]` (and the `x` analogue). -/
def initCross (s : Segment) : Segment :=
  { s with clo := some s.pos, chi := some s.pos }

/-- The inner merging loop over one sorted extent group. -/
def mergeRun : Segment → List Segment → List Segment
  | cur, [] => [cur]
  | cur, n :: rest =>
      if n.pos = chiv cur + 1 then mergeRun { cur with chi := some n.pos } rest
      else cur :: mergeRun (initCross n) rest

def mergeGroup : List Segment → List Segment
  | [] => []
  | s :: rest => mergeRun (initCross s) rest

def mergeAligned (segs : List Segment) : List Segment :=
  if segs = [] then []
  else (groupByExtent segs).flatMap (fun kl => mergeGroup (sortByPos kl.2))

def mergeHorizontalSegments (segs : List Segment) : List Segment := mergeAligned segs

def mergeVerticalSegments (segs : List Segment) : List Segment := mergeAligned segs

/-- `SegmentMerger.merge_segments` (the configured `merge_tolerance` is never
read by the merging logic). -/
def mergeSegments (segs : List Segment) : List Segment :=
  if segs.length = 0 then []
  else
    mergeHorizontalSegments (segs.filter isHorizontal) ++
      mergeVerticalSegments (segs.filter isVertical)

/-! ## Walls and coordinates (`_segments_to_walls`, `_pixel_to_world`). -/

structure Wall where
  x : ℚ
  y : ℚ
  width : ℚ
  length : ℚ
  angle : ℚ
deriving DecidableEq, Repr

/-- `_pixel_to_world`: `x_world = origin[0] + x_px * resolution`,
`y_world = origin[1] + (self.height - y_px) * resolution`. -/
def pixelToWorld (origin : ℚ × ℚ) (resolution : ℚ) (height : Nat) (p : ℚ × ℚ) : ℚ × ℚ :=
  (origin.1 + p.1 * resolution, origin.2 + ((height : ℚ) - p.2) * resolution)

def segmentToWall (resolution : ℚ) (origin : ℚ × ℚ) (height : Nat) (s : Segment) : Wall :=
  let se : (ℚ × ℚ) × (ℚ × ℚ) :=
    match s.kind with
    | SegKind.horizontal =>
        (((s.lo : ℚ), (s.hi : ℚ)), ((s.clo.getD s.pos : ℚ), (s.chi.getD s.pos : ℚ)))
    | SegKind.vertical =>
        (((s.clo.getD s.pos : ℚ), (s.chi.getD s.pos : ℚ)), ((s.lo : ℚ), (s.hi : ℚ)))
  let startX := se.1.1
  let endX := se.1.2
  let startY := se.2.1
  let endY := se.2.2
  let centerWorld :=
    pixelToWorld origin resolution height ((startX + endX) / 2, (startY + endY) / 2)
  { x := centerWorld.1, y := centerWorld.2,
    width := (endX - startX + 1) * resolution,
    length := (endY - startY + 1) * resolution, angle := 0 }

def segmentsToWalls (resolution : ℚ) (origin : ℚ × ℚ) (height : Nat)
    (segs : List Segment) : List Wall :=
  segs.map (segmentToWall resolution origin height)

/-- `WallAggregationExtractor.extract_walls`. -/
def extractWalls (g : Grid) (resolution : ℚ) (origin : ℚ × ℚ)
    (occupiedThresh : ℚ) (negate : Bool) (enableMerging : Bool) : List Wall :=
  let occ := getOccupiedGrid g negate occupiedThresh
  let hsegs := aggregateHorizontal occ g.height g.width
  let vsegs := aggregateVertical occ g.height g.width hsegs
  let allSegs := hsegs ++ vsegs
  let finalSegs := if enableMerging then mergeSegments allSegs else allSegs
  segmentsToWalls resolution origin g.height finalSegs

/-! ## Connected components (`scipy.ndimage.label` with its default
4-connectivity cross structuring element).  The labelling is modelled by an
executable BFS flood fill; a component is named by its row-major-least cell
(`isCanonical`), so `componentReps` enumerates the labels `1..num_components`. -/

def cellKey (w : Nat) (c : Nat × Nat) : Nat := c.1 * w + c.2

def inBoundsB (h w : Nat) (c : Nat × Nat) : Bool := decide (c.1 < h ∧ c.2 < w)

def neighbors4 (c : Nat × Nat) : List (Nat × Nat) :=
  [(c.1 + 1, c.2), (c.1, c.2 + 1)] ++
    (if 0 < c.1 then [(c.1 - 1, c.2)] else []) ++
    (if 0 < c.2 then [(c.1, c.2 - 1)] else [])

def bfsReach (m : Nat → Nat → Bool) (h w : Nat) :
    Nat → List (Nat × Nat) → List (Nat × Nat) → List (Nat × Nat)
  | 0, _, visited => visited
  | _ + 1, [], visited => visited
  | fuel + 1, c :: queue, visited =>
      if visited.contains c then bfsReach m h w fuel queue visited
      else
        bfsReach m h w fuel
          (queue ++ (neighbors4 c).filter (fun d => inBoundsB h w d && m d.1 d.2))
          (visited ++ [c])

def componentOf (m : Nat → Nat → Bool) (h w : Nat) (c : Nat × Nat) :
    List (Nat × Nat) :=
  bfsReach m h w (4 * h * w + 5) [c] []

/-- The occupied in-range cells in row-major order. -/
def occupiedCells (m : Nat → Nat → Bool) (h w : Nat) : List (Nat × Nat) :=
  (List.range h).flatMap (fun y =>
    ((List.range w).filter (fun x => m y x)).map (fun x => (y, x)))

def isCanonical (m : Nat → Nat → Bool) (h w : Nat) (c : Nat × Nat) : Bool :=
  (componentOf m h w c).all (fun d => cellKey w c ≤ cellKey w d)

def componentReps (m : Nat → Nat → Bool) (h w : Nat) : List (Nat × Nat) :=
  (occupiedCells m h w).filter (isCanonical m h w)

def numComponents (m : Nat → Nat → Bool) (h w : Nat) : Nat :=
  (componentReps m h w).length

def compSize (m : Nat → Nat → Bool) (h w : Nat) (c : Nat × Nat) : Nat :=
  (componentOf m h w c).length

/-- Pixels tallied into the small-component count (`size < 20`). -/
def smallComponentPixels (m : Nat → Nat → Bool) (h w : Nat) : Nat :=
  ((componentReps m h w).map (fun c =>
    let n := compSize m h w c
    if n < 20 then n else 0)).sum

/-- One cell of a component survives `ndimage.binary_erosion` (cross element,
zero border) iff its four neighbours exist and lie in the component. -/
def erosionSurvives (comp : List (Nat × Nat)) (h w : Nat) (d : Nat × Nat) : Bool :=
  decide (0 < d.1) && decide (d.1 + 1 < h) && decide (0 < d.2) && decide (d.2 + 1 < w) &&
    comp.contains (d.1 - 1, d.2) && comp.contains (d.1 + 1, d.2) &&
    comp.contains (d.1, d.2 - 1) && comp.contains (d.1, d.2 + 1)

/-- `perimeter = np.sum(xor(component_mask, eroded))`. -/
def compPerimeter (m : Nat → Nat → Bool) (h w : Nat) (c : Nat × Nat) : Nat :=
  ((componentOf m h w c).filter
    (fun d => !erosionSurvives (componentOf m h w c) h w d)).length

/-- The `(perimeter, size)` samples collected for components of size ≥ 20;
`boundary_roughness` is the mean of `perimeter / sqrt(size)` over them. -/
def roughnessSamples (m : Nat → Nat → Bool) (h w : Nat) : List (Nat × Nat) :=
  ((componentReps m h w).filter (fun c => 20 ≤ compSize m h w c)).map
    (fun c => (compPerimeter m h w c, compSize m h w c))

/-! ## Noise analysis (`PGMEnhancer.analyze_map_noise`). -/

structure NoiseMetrics where
  smallComponentRatio : ℚ
  fragmentationScore : ℚ
  roughSamples : List (Nat × Nat)
  noiseLevel : Nat
deriving DecidableEq, Repr

def analyzeMapNoise (g : Grid) : NoiseMetrics :=
  let m := analyzerMask g
  let total := (occupiedCells m g.height g.width).length
  if total = 0 then ⟨0, 0, [], 0⟩
  else
    let numC := numComponents m g.height g.width
    if numC = 0 then ⟨0, 0, [], 0⟩
    else
      let ratio : ℚ := (smallComponentPixels m g.height g.width : ℚ) / (total : ℚ)
      let frag : ℚ := (numC : ℚ) / max ((total : ℚ) / 100) 1
      let level : Nat :=
        if 14 / 100 < ratio then 2
        else if 1 / 10 < ratio ∧ 5 < frag then 1
        else 0
      ⟨ratio, frag, roughnessSamples m g.height g.width, level⟩

/-- `has_grainy_boundaries = boundary_roughness > 10.0` where
`boundary_roughness` is the mean of `perimeter / sqrt(size)` (0 when there
are no samples; in the embedding the empty mean is `0 / 0 = 0`).  This is the
one float quantity kept as a real-number proposition. -/
def hasGrainyBoundaries (metrics : NoiseMetrics) : Prop :=
  10 < ((metrics.roughSamples.map
    (fun p => (p.1 : ℝ) / Real.sqrt (p.2 : ℝ))).sum) / (metrics.roughSamples.length : ℝ)

/-! ## Adaptive parameter selection (`get_adaptive_parameters`). -/

inductive EnhanceTag where
  | noneTag
  | boundarySmoothing
  | moderate
  | aggressive
  | standardTag
deriving DecidableEq, Repr

structure AdaptiveParams where
  closingSize : Nat
  closingIterations : Nat
  openingSize : Nat
  openingIterations : Nat
  minComponentSize : Nat
  applyEnhancement : Bool
  enhancementTag : EnhanceTag
deriving DecidableEq, Repr

def getAdaptiveParameters (noiseLevel : Nat) (hasGrainy : Bool) : AdaptiveParams :=
  if noiseLevel = 0 then
    if hasGrainy then ⟨4, 1, 0, 0, 0, true, EnhanceTag.boundarySmoothing⟩
    else ⟨0, 0, 0, 0, 3, false, EnhanceTag.noneTag⟩
  else if noiseLevel = 1 then ⟨3, 1, 0, 0, 5, true, EnhanceTag.moderate⟩
  else ⟨7, 3, 0, 0, 15, true, EnhanceTag.aggressive⟩

/-! ## Morphology (`scipy.ndimage` median filter, pad, binary closing). -/

/-- Index reflection for the median filter's default `reflect` border mode
(half-sample symmetry; a single reflection suffices for the 3-wide window). -/
def reflectIdx (n : Nat) (i : Int) : Nat :=
  if i < 0 then (-i - 1).toNat
  else if (n : Int) ≤ i then (2 * (n : Int) - 1 - i).toNat
  else i.toNat

def sortNatInsert (a : Nat) : List Nat → List Nat
  | [] => [a]
  | b :: t => if b < a then b :: sortNatInsert a t else a :: b :: t

def sortNat (l : List Nat) : List Nat := l.foldr sortNatInsert []

def medianWindow (g : Grid) (size : Nat) (y x : Nat) : List Nat :=
  (List.range size).flatMap (fun dy =>
    (List.range size).map (fun dx =>
      g.val (reflectIdx g.height ((y : Int) + (dy : Int) - ((size / 2 : Nat) : Int)))
        (reflectIdx g.width ((x : Int) + (dx : Int) - ((size / 2 : Nat) : Int)))))

/-- `ndimage.median_filter(·, size)`: rank `size*size / 2` of the window. -/
def medianFilter (g : Grid) (size : Nat) : Grid :=
  ⟨g.height, g.width, fun y x =>
    (sortNat (medianWindow g size y x)).getD (size * size / 2) 0⟩

/-- The enhancer's occupied mask `(image < 128)`. -/
def maskOfGrid (g : Grid) (y x : Nat) : Bool := decide (g.val y x < 128)

/-- `np.pad(mask, p, constant 0)`: dimensions grow to `(h+2p) × (w+2p)`. -/
def padMask (m : Nat → Nat → Bool) (h w p : Nat) (y x : Nat) : Bool :=
  decide (p ≤ y) && decide (y < p + h) && decide (p ≤ x) && decide (x < p + w) &&
    m (y - p) (x - p)

/-- Reading a mask at an `Int` position, zero outside `[0,h) × [0,w)` (the
`border_value=0` default of scipy's binary morphology). -/
def maskGetI (m : Nat → Nat → Bool) (h w : Nat) (y x : Int) : Bool :=
  decide (0 ≤ y) && decide (y < (h : Int)) && decide (0 ≤ x) && decide (x < (w : Int)) &&
    m y.toNat x.toNat

/-- Offsets of the `k × k` all-ones structuring element around its centre. -/
def kernelOffsets (k : Nat) : List Int :=
  (List.range k).map (fun i => (i : Int) - ((k / 2 : Nat) : Int))

def dilateOnce (k h w : Nat) (m : Nat → Nat → Bool) (y x : Nat) : Bool :=
  (kernelOffsets k).any (fun dy =>
    (kernelOffsets k).any (fun dx => maskGetI m h w ((y : Int) + dy) ((x : Int) + dx)))

def erodeOnce (k h w : Nat) (m : Nat → Nat → Bool) (y x : Nat) : Bool :=
  (kernelOffsets k).all (fun dy =>
    (kernelOffsets k).all (fun dx => maskGetI m h w ((y : Int) + dy) ((x : Int) + dx)))

def iterMask (f : (Nat → Nat → Bool) → Nat → Nat → Bool) :
    Nat → (Nat → Nat → Bool) → Nat → Nat → Bool
  | 0, m => m
  | n + 1, m => iterMask f n (f m)

/-- `ndimage.binary_closing(·, structure=ones k×k, iterations)`: `iterations`
dilations followed by `iterations` erosions. -/
def binaryClosing (k iters h w : Nat) (m : Nat → Nat → Bool) : Nat → Nat → Bool :=
  iterMask (erodeOnce k h w) iters (iterMask (dilateOnce k h w) iters m)

def cropMask (m : Nat → Nat → Bool) (p : Nat) (y x : Nat) : Bool := m (y + p) (x + p)

/-- `_remove_small_components`: keep exactly the cells whose 4-connected
component has at least `minSize` pixels. -/
def removeSmallComponents (m : Nat → Nat → Bool) (h w minSize : Nat) (y x : Nat) : Bool :=
  m y x && inBoundsB h w (y, x) && decide (minSize ≤ compSize m h w (y, x))

/-- The shared pad → close → crop sequence of `enhance_pgm`. -/
def closePipeline (closingSize iters : Nat) (m : Nat → Nat → Bool) (h w : Nat) :
    Nat → Nat → Bool :=
  let p := max closingSize 3
  cropMask (binaryClosing closingSize iters (h + 2 * p) (w + 2 * p) (padMask m h w p)) p

/-- `np.where(cleaned, 0, 254)`. -/
def renderMask (h w : Nat) (m : Nat → Nat → Bool) : Grid :=
  ⟨h, w, fun y x => if m y x then 0 else 254⟩

def boundarySmoothingPath (closingSize iters minComp : Nat) (g : Grid) : Grid :=
  let smoothed := closePipeline closingSize iters (maskOfGrid g) g.height g.width
  let cleaned :=
    if 0 < minComp then removeSmallComponents smoothed g.height g.width minComp
    else smoothed
  renderMask g.height g.width cleaned

def standardPath (closingSize iters medianSize minComp : Nat) (g : Grid) : Grid :=
  let med := medianFilter g medianSize
  let closed := closePipeline closingSize iters (maskOfGrid med) g.height g.width
  renderMask g.height g.width (removeSmallComponents closed g.height g.width minComp)

/-! ## `PGMEnhancer.enhance_pgm`. -/

structure EnhanceParams where
  closingSize : Nat
  closingIterations : Nat
  medianSize : Nat
  minComponentSize : Nat
deriving DecidableEq, Repr

def defaultEnhanceParams : EnhanceParams := ⟨3, 1, 3, 5⟩

/-- `enhance_pgm(image_data, adaptive)`.  The boolean `grainy` models the
float-computed `has_grainy_boundaries` flag of the metrics; theorems relate
it to `hasGrainyBoundaries (analyzeMapNoise g)` by hypothesis.  It is only
read on the adaptive clean path, exactly as in the source. -/
def enhancePGM (p : EnhanceParams) (g : Grid) (adaptive grainy : Bool) : Grid × Bool :=
  if adaptive then
    let metrics := analyzeMapNoise g
    let ap := getAdaptiveParameters metrics.noiseLevel grainy
    if ap.applyEnhancement = false then (g, false)
    else
      match ap.enhancementTag with
      | EnhanceTag.boundarySmoothing =>
          (boundarySmoothingPath ap.closingSize ap.closingIterations
            ap.minComponentSize g, true)
      | _ =>
          (standardPath ap.closingSize ap.closingIterations p.medianSize
            ap.minComponentSize g, true)
  else
    (standardPath p.closingSize p.closingIterations p.medianSize
      p.minComponentSize g, true)

/-! ## Properties of the scanline loop. -/

theorem runEnd_lt (occ : Nat → Bool) (w x : Nat) (hx : x < w) : runEnd occ w x < w := by
  rw [runEnd]
  by_cases h : x + 1 < w ∧ occ (x + 1) = true
  · rw [dif_pos h]
    exact runEnd_lt occ w (x + 1) h.1
  · rw [dif_neg h]
    exact hx
termination_by w - x
decreasing_by
  have hx1 : x + 1 < w := h.1
  omega

theorem runEnd_all (occ : Nat → Bool) (w x : Nat) (hx : occ x = true) :
    ∀ z, x ≤ z → z ≤ runEnd occ w x → occ z = true := by
  intro z hxz hzr
  rw [runEnd] at hzr
  by_cases h : x + 1 < w ∧ occ (x + 1) = true
  · rw [dif_pos h] at hzr
    rcases Nat.eq_or_lt_of_le hxz with heq | hlt
    · exact heq ▸ hx
    · exact runEnd_all occ w (x + 1) h.2 z hlt hzr
  · rw [dif_neg h] at hzr
    have : z = x := Nat.le_antisymm hzr hxz
    exact this ▸ hx
termination_by w - x
decreasing_by
  have hx1 : x + 1 < w := h.1
  omega

theorem runEnd_next (occ : Nat → Bool) (w x : Nat)
    (hw : runEnd occ w x + 1 < w) : occ (runEnd occ w x + 1) = false := by
  rw [runEnd]
  rw [runEnd] at hw
  by_cases h : x + 1 < w ∧ occ (x + 1) = true
  · rw [dif_pos h]
    rw [dif_pos h] at hw
    exact runEnd_next occ w (x + 1) hw
  · rw [dif_neg h]
    rw [dif_neg h] at hw
    cases hocc : occ (x + 1) with
    | false => rfl
    | true => exact absurd ⟨hw, hocc⟩ h
termination_by w - x
decreasing_by
  have hx1 : x + 1 < w := h.1
  omega

theorem scanLine_sound (occ : Nat → Bool) (w x : Nat) (p : Nat × Nat)
    (hp : p ∈ scanLine occ w x) :
    x ≤ p.1 ∧ p.1 ≤ p.2 ∧ p.2 < w ∧
      (∀ z, p.1 ≤ z → z ≤ p.2 → occ z = true) ∧
      (p.1 = 0 ∨ occ (p.1 - 1) = false) ∧
      (p.2 + 1 = w ∨ occ (p.2 + 1) = false) := by
  rw [scanLine] at hp
  by_cases hx : x < w
  · rw [dif_pos hx] at hp
    by_cases hg : occ x = true ∧ (x = 0 ∨ occ (x - 1) = false)
    · rw [if_pos hg] at hp
      rcases List.mem_cons.mp hp with hhead | htail
      · subst hhead
        refine ⟨Nat.le_refl x, runEnd_ge occ w x, runEnd_lt occ w x hx, ?_, hg.2, ?_⟩
        · exact runEnd_all occ w x hg.1
        · by_cases hrw : runEnd occ w x + 1 < w
          · exact Or.inr (runEnd_next occ w x hrw)
          · have : runEnd occ w x < w := runEnd_lt occ w x hx
            exact Or.inl (by omega)
      · have ih := scanLine_sound occ w (runEnd occ w x + 1) p htail
        have := runEnd_ge occ w x
        exact ⟨by omega, ih.2⟩
    · rw [if_neg hg] at hp
      have ih := scanLine_sound occ w (x + 1) p hp
      exact ⟨by omega, ih.2⟩
  · rw [dif_neg hx] at hp
    exact absurd hp (List.not_mem_nil p)
termination_by w - x
decreasing_by
  · have := runEnd_ge occ w x
    omega
  · omega

theorem scanLine_complete (occ : Nat → Bool) (w x z : Nat)
    (hinv : x = 0 ∨ occ (x - 1) = false ∨ occ x = false)
    (hxz : x ≤ z) (hzw : z < w) (hz : occ z = true) :
    ∃ p ∈ scanLine occ w x, p.1 ≤ z ∧ z ≤ p.2 := by
  have hx : x < w := Nat.lt_of_le_of_lt hxz hzw
  rw [scanLine]
  rw [dif_pos hx]
  by_cases hg : occ x = true ∧ (x = 0 ∨ occ (x - 1) = false)
  · rw [if_pos hg]
    by_cases hze : z ≤ runEnd occ w x
    · exact ⟨(x, runEnd occ w x), List.mem_cons_self _ _, hxz, hze⟩
    · have hlt : runEnd occ w x < z := Nat.lt_of_not_le hze
      have hrw : runEnd occ w x + 1 < w := by omega
      have hnext : occ (runEnd occ w x + 1) = false := runEnd_next occ w x hrw
      obtain ⟨p, hpmem, hpz⟩ :=
        scanLine_complete occ w (runEnd occ w x + 1) z
          (Or.inr (Or.inr hnext)) (by omega) hzw hz
      exact ⟨p, List.mem_cons_of_mem _ hpmem, hpz⟩
  · rw [if_neg hg]
    cases hocc : occ x with
    | false =>
        have hne : x ≠ z := fun heq => by rw [heq] at hocc; rw [hocc] at hz; cases hz
        have hinv1 : (x + 1) = 0 ∨ occ ((x + 1) - 1) = false ∨ occ (x + 1) = false := by
          right; left; simpa using hocc
        exact scanLine_complete occ w (x + 1) z hinv1 (by omega) hzw hz
    | true =>
        exfalso
        rcases hinv with h0 | hprev | hfalse
        · exact hg ⟨hocc, Or.inl h0⟩
        · exact hg ⟨hocc, Or.inr hprev⟩
        · rw [hocc] at hfalse; cases hfalse
termination_by w - x
decreasing_by
  · have := runEnd_ge occ w x
    omega
  · omega

theorem scanLine_pairwise (occ : Nat → Bool) (w x : Nat) :
    List.Pairwise (fun p q : Nat × Nat => p.2 < q.1) (scanLine occ w x) := by
  rw [scanLine]
  by_cases hx : x < w
  · rw [dif_pos hx]
    by_cases hg : occ x = true ∧ (x = 0 ∨ occ (x - 1) = false)
    · rw [if_pos hg]
      refine List.Pairwise.cons ?_ (scanLine_pairwise occ w (runEnd occ w x + 1))
      intro q hq
      have := (scanLine_sound occ w (runEnd occ w x + 1) q hq).1
      omega
    · rw [if_neg hg]
      exact scanLine_pairwise occ w (x + 1)
  · rw [dif_neg hx]
    exact List.Pairwise.nil
termination_by w - x
decreasing_by
  · have := runEnd_ge occ w x
    omega
  · omega

theorem scanLine_nil (occ : Nat → Bool) (w x : Nat)
    (hocc : ∀ z, z < w → occ z = false) : scanLine occ w x = [] := by
  rw [scanLine]
  by_cases hx : x < w
  · rw [dif_pos hx]
    have hg : ¬(occ x = true ∧ (x = 0 ∨ occ (x - 1) = false)) := by
      intro hg
      rw [hocc x hx] at hg
      cases hg.1
    rw [if_neg hg]
    exact scanLine_nil occ w (x + 1) hocc
  · rw [dif_neg hx]
termination_by w - x
decreasing_by
  omega

/-- In a list that is pairwise ordered by `R`, two distinct members are
related one way or the other. -/
theorem pairwise_total_of_mem {α : Type} {R : α → α → Prop} {l : List α}
    (hl : List.Pairwise R l) {a b : α} (ha : a ∈ l) (hb : b ∈ l) (hne : a ≠ b) :
    R a b ∨ R b a := by
  induction l with
  | nil => exact absurd ha (List.not_mem_nil a)
  | cons hd tl ih =>
      rcases List.mem_cons.mp ha with rfl | hatl
      · rcases List.mem_cons.mp hb with rfl | hbtl
        · exact absurd rfl hne
        · exact Or.inl ((List.pairwise_cons.mp hl).1 b hbtl)
      · rcases List.mem_cons.mp hb with rfl | hbtl
        · exact Or.inr ((List.pairwise_cons.mp hl).1 a hatl)
        · exact ih (List.pairwise_cons.mp hl).2 hatl hbtl

/-! ## Properties of the two aggregation passes. -/

theorem mem_aggregateHorizontal {occ : Nat → Nat → Bool} {h w : Nat} {s : Segment} :
    s ∈ aggregateHorizontal occ h w ↔
      ∃ y, y < h ∧ ∃ p, p ∈ scanLine (fun x => occ y x) w 0 ∧
        s = ⟨SegKind.horizontal, y, p.1, p.2, none, none, p.2 - p.1 + 1⟩ := by
  constructor
  · intro hs
    simp only [aggregateHorizontal, List.mem_flatMap, List.mem_map, List.mem_range] at hs
    obtain ⟨y, hy, p, hp, rfl⟩ := hs
    exact ⟨y, hy, p, hp, rfl⟩
  · rintro ⟨y, hy, p, hp, rfl⟩
    simp only [aggregateHorizontal, List.mem_flatMap, List.mem_map, List.mem_range]
    exact ⟨y, hy, p, hp, rfl⟩

theorem mem_aggregateVertical {occ : Nat → Nat → Bool} {h w : Nat}
    {hsegs : List Segment} {s : Segment} :
    s ∈ aggregateVertical occ h w hsegs ↔
      ∃ x, x < w ∧ ∃ p, p ∈ scanLine (fun y => gridForVertical occ hsegs y x) h 0 ∧
        s = ⟨SegKind.vertical, x, p.1, p.2, none, none, p.2 - p.1 + 1⟩ := by
  constructor
  · intro hs
    simp only [aggregateVertical, List.mem_flatMap, List.mem_map, List.mem_range] at hs
    obtain ⟨x, hx, p, hp, rfl⟩ := hs
    exact ⟨x, hx, p, hp, rfl⟩
  · rintro ⟨x, hx, p, hp, rfl⟩
    simp only [aggregateVertical, List.mem_flatMap, List.mem_map, List.mem_range]
    exact ⟨x, hx, p, hp, rfl⟩

theorem coversB_hbasic {s : Segment} (hk : s.kind = SegKind.horizontal)
    (hclo : s.clo = none) (hchi : s.chi = none) (c : Nat × Nat) :
    coversB s c = true ↔ c.1 = s.pos ∧ s.lo ≤ c.2 ∧ c.2 ≤ s.hi := by
  rcases s with ⟨k, pos, lo, hi, clo, chi, len⟩
  simp only at hk hclo hchi
  subst hk; subst hclo; subst hchi
  simp only [coversB, Option.getD_none, decide_eq_true_eq]
  omega

theorem coversB_vbasic {s : Segment} (hk : s.kind = SegKind.vertical)
    (hclo : s.clo = none) (hchi : s.chi = none) (c : Nat × Nat) :
    coversB s c = true ↔ c.2 = s.pos ∧ s.lo ≤ c.1 ∧ c.1 ≤ s.hi := by
  rcases s with ⟨k, pos, lo, hi, clo, chi, len⟩
  simp only at hk hclo hchi
  subst hk; subst hclo; subst hchi
  simp only [coversB, Option.getD_none, decide_eq_true_eq]
  omega

theorem hseg_props {occ : Nat → Nat → Bool} {h w : Nat} {s : Segment}
    (hs : s ∈ aggregateHorizontal occ h w) :
    s.kind = SegKind.horizontal ∧ s.clo = none ∧ s.chi = none ∧ s.pos < h ∧
      s.lo ≤ s.hi ∧ s.hi < w ∧
      (∀ x, s.lo ≤ x → x ≤ s.hi → occ s.pos x = true) ∧
      s.lengthPx = s.hi - s.lo + 1 := by
  obtain ⟨y, hy, p, hp, rfl⟩ := mem_aggregateHorizontal.mp hs
  have hsnd := scanLine_sound _ w 0 p hp
  exact ⟨rfl, rfl, rfl, hy, hsnd.2.1, hsnd.2.2.1, hsnd.2.2.2.1, rfl⟩

theorem vseg_props {occ : Nat → Nat → Bool} {h w : Nat} {hsegs : List Segment}
    {s : Segment} (hs : s ∈ aggregateVertical occ h w hsegs) :
    s.kind = SegKind.vertical ∧ s.clo = none ∧ s.chi = none ∧ s.pos < w ∧
      s.lo ≤ s.hi ∧ s.hi < h ∧
      (∀ y, s.lo ≤ y → y ≤ s.hi → gridForVertical occ hsegs y s.pos = true) ∧
      s.lengthPx = s.hi - s.lo + 1 := by
  obtain ⟨x, hx, p, hp, rfl⟩ := mem_aggregateVertical.mp hs
  have hsnd := scanLine_sound _ h 0 p hp
  exact ⟨rfl, rfl, rfl, hx, hsnd.2.1, hsnd.2.2.1, hsnd.2.2.2.1, rfl⟩

theorem aggregateHorizontal_complete {occ : Nat → Nat → Bool} {h w : Nat}
    {y x : Nat} (hy : y < h) (hx : x < w) (hocc : occ y x = true) :
    ∃ s ∈ aggregateHorizontal occ h w, coversB s (y, x) = true := by
  obtain ⟨p, hp, hplo, hphi⟩ :=
    scanLine_complete (fun x => occ y x) w 0 x (Or.inl rfl) (Nat.zero_le x) hx hocc
  refine ⟨⟨SegKind.horizontal, y, p.1, p.2, none, none, p.2 - p.1 + 1⟩,
    mem_aggregateHorizontal.mpr ⟨y, hy, p, hp, rfl⟩, ?_⟩
  rw [coversB_hbasic rfl rfl rfl]
  exact ⟨rfl, hplo, hphi⟩

theorem aggregateVertical_complete {occ : Nat → Nat → Bool} {h w : Nat}
    {hsegs : List Segment} {y x : Nat} (hy : y < h) (hx : x < w)
    (hocc : gridForVertical occ hsegs y x = true) :
    ∃ s ∈ aggregateVertical occ h w hsegs, coversB s (y, x) = true := by
  obtain ⟨p, hp, hplo, hphi⟩ :=
    scanLine_complete (fun y => gridForVertical occ hsegs y x) h 0 y
      (Or.inl rfl) (Nat.zero_le y) hy hocc
  refine ⟨⟨SegKind.vertical, x, p.1, p.2, none, none, p.2 - p.1 + 1⟩,
    mem_aggregateVertical.mpr ⟨x, hx, p, hp, rfl⟩, ?_⟩
  rw [coversB_vbasic rfl rfl rfl]
  exact ⟨rfl, hplo, hphi⟩

theorem aggregateHorizontal_disjoint {occ : Nat → Nat → Bool} {h w : Nat}
    {s₁ s₂ : Segment} (h₁ : s₁ ∈ aggregateHorizontal occ h w)
    (h₂ : s₂ ∈ aggregateHorizontal occ h w) (hne : s₁ ≠ s₂) (c : Nat × Nat) :
    ¬(coversB s₁ c = true ∧ coversB s₂ c = true) := by
  rintro ⟨hc₁, hc₂⟩
  obtain ⟨y₁, hy₁, p₁, hp₁, rfl⟩ := mem_aggregateHorizontal.mp h₁
  obtain ⟨y₂, hy₂, p₂, hp₂, rfl⟩ := mem_aggregateHorizontal.mp h₂
  rw [coversB_hbasic rfl rfl rfl] at hc₁ hc₂
  have hy : y₁ = y₂ := by
    have e₁ := hc₁.1
    have e₂ := hc₂.1
    simp only at e₁ e₂
    omega
  subst hy
  have hpne : p₁ ≠ p₂ := by
    intro heq
    exact hne (by rw [heq])
  rcases pairwise_total_of_mem (scanLine_pairwise (fun x => occ y₁ x) w 0) hp₁ hp₂ hpne
    with hlt | hlt
  · have a₁ := hc₁.2.2
    have a₂ := hc₂.2.1
    simp only at a₁ a₂
    omega
  · have a₁ := hc₁.2.1
    have a₂ := hc₂.2.2
    simp only at a₁ a₂
    omega

theorem aggregateVertical_disjoint {occ : Nat → Nat → Bool} {h w : Nat}
    {hsegs : List Segment} {s₁ s₂ : Segment}
    (h₁ : s₁ ∈ aggregateVertical occ h w hsegs)
    (h₂ : s₂ ∈ aggregateVertical occ h w hsegs) (hne : s₁ ≠ s₂) (c : Nat × Nat) :
    ¬(coversB s₁ c = true ∧ coversB s₂ c = true) := by
  rintro ⟨hc₁, hc₂⟩
  obtain ⟨x₁, hx₁, p₁, hp₁, rfl⟩ := mem_aggregateVertical.mp h₁
  obtain ⟨x₂, hx₂, p₂, hp₂, rfl⟩ := mem_aggregateVertical.mp h₂
  rw [coversB_vbasic rfl rfl rfl] at hc₁ hc₂
  have hx : x₁ = x₂ := by
    have e₁ := hc₁.1
    have e₂ := hc₂.1
    simp only at e₁ e₂
    omega
  subst hx
  have hpne : p₁ ≠ p₂ := by
    intro heq
    exact hne (by rw [heq])
  rcases pairwise_total_of_mem
      (scanLine_pairwise (fun y => gridForVertical occ hsegs y x₁) h 0) hp₁ hp₂ hpne
    with hlt | hlt
  · have a₁ := hc₁.2.2
    have a₂ := hc₂.2.1
    simp only at a₁ a₂
    omega
  · have a₁ := hc₁.2.1
    have a₂ := hc₂.2.2
    simp only at a₁ a₂
    omega

theorem gridForVertical_eq (m : Nat → Nat → Bool) (segs : List Segment) (y x : Nat) :
    gridForVertical m segs y x = true ↔
      m y x = true ∧ ∀ s ∈ segs, 1 < s.lengthPx → ¬(y = s.pos ∧ s.lo ≤ x ∧ x ≤ s.hi) := by
  induction segs generalizing m with
  | nil => simp [gridForVertical]
  | cons s t ih =>
      have hstep : gridForVertical m (s :: t) =
          gridForVertical (if 1 < s.lengthPx then zeroRange m s else m) t := rfl
      rw [hstep, ih]
      by_cases hlen : 1 < s.lengthPx
      · rw [if_pos hlen]
        constructor
        · rintro ⟨hz, ht⟩
          by_cases hcov : y = s.pos ∧ s.lo ≤ x ∧ x ≤ s.hi
          · simp [zeroRange, hcov] at hz
          · have hzm : zeroRange m s y x = m y x := by simp [zeroRange, hcov]
            rw [hzm] at hz
            refine ⟨hz, ?_⟩
            intro s' hs' hlen'
            rcases List.mem_cons.mp hs' with rfl | hst
            · exact hcov
            · exact ht s' hst hlen'
        · rintro ⟨hm, hall⟩
          have hncov : ¬(y = s.pos ∧ s.lo ≤ x ∧ x ≤ s.hi) :=
            hall s (List.mem_cons_self s t) hlen
          refine ⟨?_, ?_⟩
          · simp [zeroRange, hncov, hm]
          · intro s' hs' hl
            exact hall s' (List.mem_cons_of_mem s hs') hl
      · rw [if_neg hlen]
        constructor
        · rintro ⟨hm, ht⟩
          refine ⟨hm, ?_⟩
          intro s' hs' hl
          rcases List.mem_cons.mp hs' with rfl | hst
          · exact absurd hl hlen
          · exact ht s' hst hl
        · rintro ⟨hm, hall⟩
          exact ⟨hm, fun s' hs' hl => hall s' (List.mem_cons_of_mem s hs') hl⟩

theorem gridForVertical_le {m : Nat → Nat → Bool} {segs : List Segment} {y x : Nat}
    (hg : gridForVertical m segs y x = true) : m y x = true :=
  ((gridForVertical_eq m segs y x).mp hg).1

/-! ## Properties of the segment merger: grouping and sorting. -/

theorem insertIntoGroups_keyed {gs : List ((Nat × Nat) × List Segment)} {t : Segment}
    (hgs : ∀ kl ∈ gs, ∀ s ∈ kl.2, extentKey s = kl.1) :
    ∀ kl ∈ insertIntoGroups gs t, ∀ s ∈ kl.2, extentKey s = kl.1 := by
  induction gs with
  | nil =>
      intro kl hkl s hs
      simp only [insertIntoGroups, List.mem_singleton] at hkl
      subst hkl
      simp only [List.mem_singleton] at hs
      subst hs
      rfl
  | cons kl₀ rest ih =>
      rcases kl₀ with ⟨k, l⟩
      intro kl hkl s hs
      by_cases hk : extentKey t = k
      · rw [insertIntoGroups, if_pos hk] at hkl
        rcases List.mem_cons.mp hkl with rfl | hrest
        · rcases List.mem_append.mp hs with hsl | hst
          · exact hgs (k, l) (List.mem_cons_self _ _) s hsl
          · simp only [List.mem_singleton] at hst
            subst hst
            exact hk
        · exact hgs kl (List.mem_cons_of_mem _ hrest) s hs
      · rw [insertIntoGroups, if_neg hk] at hkl
        rcases List.mem_cons.mp hkl with rfl | hrest
        · exact hgs (k, l) (List.mem_cons_self _ _) s hs
        · exact ih (fun kl' h' => hgs kl' (List.mem_cons_of_mem _ h')) kl hrest s hs

theorem mem_insertIntoGroups {gs : List ((Nat × Nat) × List Segment)} {t s : Segment} :
    (∃ kl ∈ insertIntoGroups gs t, s ∈ kl.2) ↔ (∃ kl ∈ gs, s ∈ kl.2) ∨ s = t := by
  induction gs with
  | nil =>
      constructor
      · rintro ⟨kl, hkl, hs⟩
        simp only [insertIntoGroups, List.mem_singleton] at hkl
        subst hkl
        simp only [List.mem_singleton] at hs
        exact Or.inr hs
      · rintro (⟨kl, hkl, _⟩ | heq)
        · exact absurd hkl (List.not_mem_nil kl)
        · subst heq
          exact ⟨(extentKey s, [s]), List.mem_singleton.mpr rfl, List.mem_singleton.mpr rfl⟩
  | cons kl₀ rest ih =>
      rcases kl₀ with ⟨k, l⟩
      by_cases hk : extentKey t = k
      · rw [insertIntoGroups, if_pos hk]
        constructor
        · rintro ⟨kl, hkl, hs⟩
          rcases List.mem_cons.mp hkl with heq | hklr
          · subst heq
            rcases List.mem_append.mp hs with hsl | hst
            · exact Or.inl ⟨(k, l), List.mem_cons_self _ _, hsl⟩
            · exact Or.inr (List.mem_singleton.mp hst)
          · exact Or.inl ⟨kl, List.mem_cons_of_mem _ hklr, hs⟩
        · rintro (⟨kl, hkl, hs⟩ | heq)
          · rcases List.mem_cons.mp hkl with heq | hklr
            · subst heq
              have hs2 : s ∈ l := hs
              exact ⟨(k, l ++ [t]), List.mem_cons_self _ _,
                List.mem_append.mpr (Or.inl hs2)⟩
            · exact ⟨kl, List.mem_cons_of_mem _ hklr, hs⟩
          · subst heq
            exact ⟨(k, l ++ [s]), List.mem_cons_self _ _,
              List.mem_append.mpr (Or.inr (List.mem_singleton.mpr rfl))⟩
      · rw [insertIntoGroups, if_neg hk]
        constructor
        · rintro ⟨kl, hkl, hs⟩
          rcases List.mem_cons.mp hkl with heq | hklr
          · subst heq
            exact Or.inl ⟨(k, l), List.mem_cons_self _ _, hs⟩
          · rcases ih.mp ⟨kl, hklr, hs⟩ with ⟨kl', hkl', hs'⟩ | heq
            · exact Or.inl ⟨kl', List.mem_cons_of_mem _ hkl', hs'⟩
            · exact Or.inr heq
        · rintro (⟨kl, hkl, hs⟩ | heq)
          · rcases List.mem_cons.mp hkl with heq2 | hklr
            · subst heq2
              exact ⟨(k, l), List.mem_cons_self _ _, hs⟩
            · obtain ⟨kl', hkl', hs'⟩ := ih.mpr (Or.inl ⟨kl, hklr, hs⟩)
              exact ⟨kl', List.mem_cons_of_mem _ hkl', hs'⟩
          · obtain ⟨kl', hkl', hs'⟩ := ih.mpr (Or.inr heq)
            exact ⟨kl', List.mem_cons_of_mem _ hkl', hs'⟩

theorem mem_foldl_insertIntoGroups {s : Segment} :
    ∀ (segs : List Segment) (acc : List ((Nat × Nat) × List Segment)),
      (∃ kl ∈ List.foldl insertIntoGroups acc segs, s ∈ kl.2) ↔
        (∃ kl ∈ acc, s ∈ kl.2) ∨ s ∈ segs
  | [], acc => by simp
  | t :: rest, acc => by
      rw [List.foldl_cons, mem_foldl_insertIntoGroups rest (insertIntoGroups acc t)]
      rw [mem_insertIntoGroups]
      constructor
      · rintro ((h | heq) | hrest)
        · exact Or.inl h
        · exact Or.inr (heq ▸ List.mem_cons_self _ _)
        · exact Or.inr (List.mem_cons_of_mem _ hrest)
      · rintro (h | hmem)
        · exact Or.inl (Or.inl h)
        · rcases List.mem_cons.mp hmem with heq | hrest
          · exact Or.inl (Or.inr heq)
          · exact Or.inr hrest

theorem mem_groupByExtent {segs : List Segment} {s : Segment} :
    (∃ kl ∈ groupByExtent segs, s ∈ kl.2) ↔ s ∈ segs := by
  rw [groupByExtent, mem_foldl_insertIntoGroups]
  simp

theorem groupByExtent_keyed (segs : List Segment) :
    ∀ kl ∈ groupByExtent segs, ∀ s ∈ kl.2, extentKey s = kl.1 := by
  have main : ∀ (l : List Segment) (acc : List ((Nat × Nat) × List Segment)),
      (∀ kl ∈ acc, ∀ s ∈ kl.2, extentKey s = kl.1) →
      ∀ kl ∈ List.foldl insertIntoGroups acc l, ∀ s ∈ kl.2, extentKey s = kl.1 := by
    intro l
    induction l with
    | nil => intro acc hacc; exact hacc
    | cons t rest ih =>
        intro acc hacc
        rw [List.foldl_cons]
        exact ih _ (insertIntoGroups_keyed hacc)
  exact main segs [] (by simp)

theorem insertIntoGroups_ne_nil {gs : List ((Nat × Nat) × List Segment)} {t : Segment}
    (hgs : ∀ kl ∈ gs, kl.2 ≠ []) : ∀ kl ∈ insertIntoGroups gs t, kl.2 ≠ [] := by
  induction gs with
  | nil =>
      intro kl hkl
      simp only [insertIntoGroups, List.mem_singleton] at hkl
      subst hkl
      simp
  | cons kl₀ rest ih =>
      rcases kl₀ with ⟨k, l⟩
      intro kl hkl
      by_cases hk : extentKey t = k
      · rw [insertIntoGroups, if_pos hk] at hkl
        rcases List.mem_cons.mp hkl with rfl | hrest
        · simp
        · exact hgs kl (List.mem_cons_of_mem _ hrest)
      · rw [insertIntoGroups, if_neg hk] at hkl
        rcases List.mem_cons.mp hkl with rfl | hrest
        · exact hgs (k, l) (List.mem_cons_self _ _)
        · exact ih (fun kl' h' => hgs kl' (List.mem_cons_of_mem _ h')) kl hrest

theorem groupByExtent_ne_nil (segs : List Segment) :
    ∀ kl ∈ groupByExtent segs, kl.2 ≠ [] := by
  have main : ∀ (l : List Segment) (acc : List ((Nat × Nat) × List Segment)),
      (∀ kl ∈ acc, kl.2 ≠ []) →
      ∀ kl ∈ List.foldl insertIntoGroups acc l, kl.2 ≠ [] := by
    intro l
    induction l with
    | nil => intro acc hacc; exact hacc
    | cons t rest ih =>
        intro acc hacc
        rw [List.foldl_cons]
        exact ih _ (insertIntoGroups_ne_nil hacc)
  exact main segs [] (by simp)

theorem insertIntoGroups_keys (gs : List ((Nat × Nat) × List Segment)) (t : Segment) :
    ((insertIntoGroups gs t).map Prod.fst = gs.map Prod.fst ∧
      extentKey t ∈ gs.map Prod.fst) ∨
    ((insertIntoGroups gs t).map Prod.fst = gs.map Prod.fst ++ [extentKey t] ∧
      extentKey t ∉ gs.map Prod.fst) := by
  induction gs with
  | nil => right; simp [insertIntoGroups]
  | cons kl₀ rest ih =>
      rcases kl₀ with ⟨k, l⟩
      by_cases hk : extentKey t = k
      · left
        rw [insertIntoGroups, if_pos hk]
        simp [hk]
      · rw [insertIntoGroups, if_neg hk]
        rcases ih with ⟨heq, hmem⟩ | ⟨heq, hnmem⟩
        · left
          constructor
          · simp [heq]
          · simp only [List.map_cons, List.mem_cons]
            exact Or.inr hmem
        · right
          constructor
          · simp [heq]
          · simp only [List.map_cons, List.mem_cons]
            rintro (h | h)
            · exact hk h
            · exact hnmem h

theorem insertIntoGroups_keys_nodup {gs : List ((Nat × Nat) × List Segment)}
    {t : Segment} (hgs : (gs.map Prod.fst).Nodup) :
    ((insertIntoGroups gs t).map Prod.fst).Nodup := by
  rcases insertIntoGroups_keys gs t with ⟨heq, _⟩ | ⟨heq, hnmem⟩
  · rw [heq]; exact hgs
  · rw [heq]
    simp only [List.nodup_append, List.nodup_singleton]
    exact ⟨hgs, trivial, by simpa using hnmem⟩

theorem groupByExtent_keys_nodup (segs : List Segment) :
    ((groupByExtent segs).map Prod.fst).Nodup := by
  have main : ∀ (l : List Segment) (acc : List ((Nat × Nat) × List Segment)),
      (acc.map Prod.fst).Nodup →
      ((List.foldl insertIntoGroups acc l).map Prod.fst).Nodup := by
    intro l
    induction l with
    | nil => intro acc hacc; exact hacc
    | cons t rest ih =>
        intro acc hacc
        rw [List.foldl_cons]
        exact ih _ (insertIntoGroups_keys_nodup hacc)
  exact main segs [] (by simp)

theorem mem_insertByPos {s a : Segment} : ∀ {l : List Segment},
    (a ∈ insertByPos s l ↔ a = s ∨ a ∈ l)
  | [] => by simp [insertByPos]
  | t :: rest => by
      rw [insertByPos]
      by_cases h : t.pos < s.pos
      · rw [if_pos h]
        simp only [List.mem_cons,
          show a ∈ insertByPos s rest ↔ a = s ∨ a ∈ rest from mem_insertByPos]
        tauto
      · rw [if_neg h]
        simp only [List.mem_cons]

theorem mem_sortByPos {a : Segment} : ∀ {l : List Segment}, a ∈ sortByPos l ↔ a ∈ l
  | [] => by simp [sortByPos]
  | t :: rest => by
      have : sortByPos (t :: rest) = insertByPos t (sortByPos rest) := rfl
      rw [this, mem_insertByPos,
        show a ∈ sortByPos rest ↔ a ∈ rest from mem_sortByPos]
      simp only [List.mem_cons]

theorem insertByPos_sorted {s : Segment} : ∀ {l : List Segment},
    List.Pairwise (fun a b : Segment => a.pos ≤ b.pos) l →
    List.Pairwise (fun a b : Segment => a.pos ≤ b.pos) (insertByPos s l)
  | [], _ => by simp [insertByPos]
  | t :: rest, hl => by
      rw [insertByPos]
      rcases List.pairwise_cons.mp hl with ⟨hts, hrest⟩
      by_cases h : t.pos < s.pos
      · rw [if_pos h]
        refine List.pairwise_cons.mpr ⟨?_, insertByPos_sorted hrest⟩
        intro b hb
        rcases mem_insertByPos.mp hb with rfl | hbr
        · exact Nat.le_of_lt h
        · exact hts b hbr
      · rw [if_neg h]
        refine List.pairwise_cons.mpr ⟨?_, hl⟩
        intro b hb
        rcases List.mem_cons.mp hb with rfl | hbr
        · exact Nat.le_of_not_lt h
        · exact Nat.le_trans (Nat.le_of_not_lt h) (hts b hbr)

theorem sortByPos_sorted : ∀ (l : List Segment),
    List.Pairwise (fun a b : Segment => a.pos ≤ b.pos) (sortByPos l)
  | [] => by simp [sortByPos]
  | t :: rest => by
      have : sortByPos (t :: rest) = insertByPos t (sortByPos rest) := rfl
      rw [this]
      exact insertByPos_sorted (sortByPos_sorted rest)

theorem sortByPos_sorted_id : ∀ {l : List Segment},
    List.Pairwise (fun a b : Segment => a.pos ≤ b.pos) l → sortByPos l = l
  | [], _ => rfl
  | t :: rest, hl => by
      have hstep : sortByPos (t :: rest) = insertByPos t (sortByPos rest) := rfl
      rcases List.pairwise_cons.mp hl with ⟨hts, hrest⟩
      rw [hstep, sortByPos_sorted_id hrest]
      cases rest with
      | nil => rfl
      | cons b rest' =>
          rw [insertByPos]
          rw [if_neg (Nat.not_lt.mpr (hts b (List.mem_cons_self _ _)))]

/-! ## Properties of the merging run itself. -/

theorem coversB_eq (s : Segment) (c : Nat × Nat) :
    coversB s c = true ↔
      (s.clo.getD s.pos ≤ crossCoord s.kind c ∧ crossCoord s.kind c ≤ s.chi.getD s.pos ∧
        s.lo ≤ mainCoord s.kind c ∧ mainCoord s.kind c ≤ s.hi) := by
  rcases s with ⟨k, pos, lo, hi, clo, chi, len⟩
  cases k
  · simp only [coversB, crossCoord, mainCoord, decide_eq_true_eq]
  · simp only [coversB, crossCoord, mainCoord, decide_eq_true_eq]
    tauto

theorem initCross_eq_self {s : Segment} (h1 : s.clo = some s.pos)
    (h2 : s.chi = some s.pos) : initCross s = s := by
  rcases s with ⟨k, pos, lo, hi, clo, chi, len⟩
  simp only at h1 h2
  subst h1
  subst h2
  rfl

theorem mergeRun_fields {κ : SegKind} {glo ghi : Nat} :
    ∀ (l : List Segment) (cur : Segment), cur.kind = κ → cur.lo = glo → cur.hi = ghi →
      (∀ n ∈ l, n.kind = κ ∧ n.lo = glo ∧ n.hi = ghi) →
      ∀ o ∈ mergeRun cur l, o.kind = κ ∧ o.lo = glo ∧ o.hi = ghi
  | [], cur, hk, hl, hh, _ => by
      intro o ho
      simp only [mergeRun, List.mem_singleton] at ho
      subst ho
      exact ⟨hk, hl, hh⟩
  | n :: rest, cur, hk, hl, hh, hall => by
      intro o ho
      rw [mergeRun] at ho
      by_cases hadj : n.pos = chiv cur + 1
      · rw [if_pos hadj] at ho
        exact mergeRun_fields rest { cur with chi := some n.pos } hk hl hh
          (fun n' h' => hall n' (List.mem_cons_of_mem _ h')) o ho
      · rw [if_neg hadj] at ho
        rcases List.mem_cons.mp ho with heq | ho'
        · subst heq
          exact ⟨hk, hl, hh⟩
        · have hn := hall n (List.mem_cons_self _ _)
          exact mergeRun_fields rest (initCross n) hn.1 hn.2.1 hn.2.2
            (fun n' h' => hall n' (List.mem_cons_of_mem _ h')) o ho'

theorem mergeRun_cons :
    ∀ (l : List Segment) (cur : Segment), ∃ hd t, mergeRun cur l = hd :: t ∧
      hd.pos = cur.pos ∧ hd.clo = cur.clo
  | [], cur => ⟨cur, [], rfl, rfl, rfl⟩
  | n :: rest, cur => by
      rw [mergeRun]
      by_cases hadj : n.pos = chiv cur + 1
      · rw [if_pos hadj]
        obtain ⟨hd, t, heq, hpos, hclo⟩ := mergeRun_cons rest { cur with chi := some n.pos }
        exact ⟨hd, t, heq, hpos, hclo⟩
      · rw [if_neg hadj]
        exact ⟨cur, _, rfl, rfl, rfl⟩

theorem mergeRun_chain :
    ∀ (l : List Segment) (cur : Segment),
      List.Chain' (fun a b : Segment => b.pos ≠ chiv a + 1) (mergeRun cur l)
  | [], cur => by simp [mergeRun]
  | n :: rest, cur => by
      rw [mergeRun]
      by_cases hadj : n.pos = chiv cur + 1
      · rw [if_pos hadj]
        exact mergeRun_chain rest _
      · rw [if_neg hadj]
        obtain ⟨hd, t, heq, hpos, _⟩ := mergeRun_cons rest (initCross n)
        rw [heq, List.chain'_cons]
        constructor
        · rw [hpos]
          exact hadj
        · rw [← heq]
          exact mergeRun_chain rest (initCross n)

theorem mergeRun_sorted :
    ∀ (l : List Segment) (cur : Segment),
      List.Pairwise (fun a b : Segment => a.pos ≤ b.pos) l →
      (∀ n ∈ l, cur.pos ≤ n.pos) →
      List.Pairwise (fun a b : Segment => a.pos ≤ b.pos) (mergeRun cur l) ∧
        ∀ o ∈ mergeRun cur l, cur.pos ≤ o.pos
  | [], cur, _, _ => by
      constructor
      · simp [mergeRun]
      · intro o ho
        simp only [mergeRun, List.mem_singleton] at ho
        subst ho
        exact Nat.le_refl _
  | n :: rest, cur, hsort, hlb => by
      rcases List.pairwise_cons.mp hsort with ⟨hn, hrest⟩
      by_cases hadj : n.pos = chiv cur + 1
      · rw [mergeRun, if_pos hadj]
        exact mergeRun_sorted rest _ hrest
          (fun n' h' => hlb n' (List.mem_cons_of_mem _ h'))
      · rw [mergeRun, if_neg hadj]
        have ih := mergeRun_sorted rest (initCross n) hrest hn
        constructor
        · refine List.pairwise_cons.mpr ⟨?_, ih.1⟩
          intro o ho
          exact Nat.le_trans (hlb n (List.mem_cons_self _ _)) (ih.2 o ho)
        · intro o ho
          rcases List.mem_cons.mp ho with heq | ho'
          · subst heq
            exact Nat.le_refl _
          · exact Nat.le_trans (hlb n (List.mem_cons_self _ _)) (ih.2 o ho')

theorem mergeRun_fixpoint :
    ∀ (l : List Segment) (cur : Segment),
      cur.clo = some cur.pos → cur.chi = some cur.pos →
      (∀ n ∈ l, n.clo = some n.pos ∧ n.chi = some n.pos) →
      List.Chain' (fun a b : Segment => b.pos ≠ chiv a + 1) (cur :: l) →
      mergeRun cur l = cur :: l
  | [], _, _, _, _, _ => rfl
  | n :: rest, cur, _, _, hall, hchain => by
      rw [mergeRun]
      have hrel := (List.chain'_cons.mp hchain).1
      rw [if_neg hrel]
      have hn := hall n (List.mem_cons_self _ _)
      rw [initCross_eq_self hn.1 hn.2]
      rw [mergeRun_fixpoint rest n hn.1 hn.2
        (fun n' h' => hall n' (List.mem_cons_of_mem _ h'))
        (List.chain'_cons.mp hchain).2]

theorem mergeRun_covered :
    ∀ (l : List Segment) (cur : Segment) (a b : Nat) (c : Nat × Nat),
      cur.clo = some a → cur.chi = some b → a ≤ b →
      (∀ n ∈ l, n.kind = cur.kind ∧ n.lo = cur.lo ∧ n.hi = cur.hi ∧
        n.clo.getD n.pos = n.pos ∧ n.chi.getD n.pos = n.pos) →
      (coveredB (mergeRun cur l) c = true ↔
        ((a ≤ crossCoord cur.kind c ∧ crossCoord cur.kind c ≤ b ∧
          cur.lo ≤ mainCoord cur.kind c ∧ mainCoord cur.kind c ≤ cur.hi) ∨
          ∃ n ∈ l, coversB n c = true))
  | [], cur, a, b, c, hclo, hchi, _, _ => by
      simp only [mergeRun, coveredB, List.any_cons, List.any_nil, Bool.or_false]
      rw [coversB_eq, hclo, hchi]
      simp only [Option.getD_some]
      constructor
      · intro h
        exact Or.inl h
      · rintro (h | ⟨n, hn, _⟩)
        · exact h
        · exact absurd hn (List.not_mem_nil n)
  | n :: rest, cur, a, b, c, hclo, hchi, hab, hall => by
      have hn := hall n (List.mem_cons_self _ _)
      have hcovn : coversB n c = true ↔
          (crossCoord cur.kind c = n.pos ∧ cur.lo ≤ mainCoord cur.kind c ∧
            mainCoord cur.kind c ≤ cur.hi) := by
        rw [coversB_eq, hn.2.2.2.1, hn.2.2.2.2, hn.1, hn.2.1, hn.2.2.1]
        constructor
        · rintro ⟨h1, h2, h3, h4⟩
          exact ⟨Nat.le_antisymm h2 h1, h3, h4⟩
        · rintro ⟨h1, h2, h3⟩
          exact ⟨Nat.le_of_eq h1.symm, Nat.le_of_eq h1, h2, h3⟩
      have hchivb : chiv cur = b := by simp [chiv, hchi]
      by_cases hadj : n.pos = chiv cur + 1
      · have hnb : n.pos = b + 1 := by rw [hadj, hchivb]
        rw [mergeRun, if_pos hadj]
        have ih := mergeRun_covered rest { cur with chi := some n.pos } a n.pos c
          hclo rfl (by omega)
          (fun n' h' => hall n' (List.mem_cons_of_mem _ h'))
        rw [ih]
        rw [show ({ cur with chi := some n.pos } : Segment).kind = cur.kind from rfl]
        rw [show ({ cur with chi := some n.pos } : Segment).lo = cur.lo from rfl]
        rw [show ({ cur with chi := some n.pos } : Segment).hi = cur.hi from rfl]
        constructor
        · rintro (⟨h1, h2, h3, h4⟩ | ⟨n', hn', hc⟩)
          · by_cases hcb : crossCoord cur.kind c ≤ b
            · exact Or.inl ⟨h1, hcb, h3, h4⟩
            · refine Or.inr ⟨n, List.mem_cons_self _ _, hcovn.mpr ⟨by omega, h3, h4⟩⟩
          · exact Or.inr ⟨n', List.mem_cons_of_mem _ hn', hc⟩
        · rintro (⟨h1, h2, h3, h4⟩ | ⟨n', hn', hc⟩)
          · exact Or.inl ⟨h1, by omega, h3, h4⟩
          · rcases List.mem_cons.mp hn' with heq | hn''
            · subst heq
              obtain ⟨hcr, hm1, hm2⟩ := hcovn.mp hc
              exact Or.inl ⟨by omega, by omega, hm1, hm2⟩
            · exact Or.inr ⟨n', hn'', hc⟩
      · rw [mergeRun, if_neg hadj]
        have hcovc : coversB cur c = true ↔
            (a ≤ crossCoord cur.kind c ∧ crossCoord cur.kind c ≤ b ∧
              cur.lo ≤ mainCoord cur.kind c ∧ mainCoord cur.kind c ≤ cur.hi) := by
          rw [coversB_eq, hclo, hchi]
          simp only [Option.getD_some]
        have ih := mergeRun_covered rest (initCross n) n.pos n.pos c rfl rfl
          (Nat.le_refl _)
          (fun n' h' => by
            have h'' := hall n' (List.mem_cons_of_mem _ h')
            exact ⟨h''.1.trans hn.1.symm, h''.2.1.trans hn.2.1.symm,
              h''.2.2.1.trans hn.2.2.1.symm, h''.2.2.2.1, h''.2.2.2.2⟩)
        have hsplit : coveredB (cur :: mergeRun (initCross n) rest) c =
            (coversB cur c || coveredB (mergeRun (initCross n) rest) c) := rfl
        rw [hsplit, Bool.or_eq_true, hcovc, ih]
        rw [show (initCross n).kind = n.kind from rfl, hn.1]
        rw [show (initCross n).lo = n.lo from rfl, hn.2.1]
        rw [show (initCross n).hi = n.hi from rfl, hn.2.2.1]
        constructor
        · rintro (h | (⟨h1, h2, h3, h4⟩ | ⟨n', hn', hc⟩))
          · exact Or.inl h
          · exact Or.inr ⟨n, List.mem_cons_self _ _,
              hcovn.mpr ⟨Nat.le_antisymm h2 h1, h3, h4⟩⟩
          · exact Or.inr ⟨n', List.mem_cons_of_mem _ hn', hc⟩
        · rintro (h | ⟨n', hn', hc⟩)
          · exact Or.inl h
          · rcases List.mem_cons.mp hn' with heq | hn''
            · subst heq
              obtain ⟨hcr, hm1, hm2⟩ := hcovn.mp hc
              exact Or.inr (Or.inl ⟨by omega, by omega, hm1, hm2⟩)
            · exact Or.inr (Or.inr ⟨n', hn'', hc⟩)

/-! ## Properties of `mergeGroup`, `groupByExtent` reconstruction and
`mergeAligned`. -/

theorem mergeGroup_covered (κ : SegKind) :
    ∀ (gs : List Segment) (c : Nat × Nat),
      (∀ s ∈ gs, s.kind = κ) →
      (∀ s ∈ gs, s.clo.getD s.pos = s.pos ∧ s.chi.getD s.pos = s.pos) →
      (∀ s ∈ gs, ∀ s' ∈ gs, s.lo = s'.lo ∧ s.hi = s'.hi) →
      (coveredB (mergeGroup gs) c = true ↔ ∃ s ∈ gs, coversB s c = true)
  | [], c, _, _, _ => by simp [mergeGroup, coveredB]
  | s :: rest, c, hκ, hsc, hext => by
      have hss := hsc s (List.mem_cons_self _ _)
      have hrw := mergeRun_covered rest (initCross s) s.pos s.pos c rfl rfl
        (Nat.le_refl _)
        (fun n' h' => by
          refine ⟨?_, ?_, ?_, (hsc n' (List.mem_cons_of_mem _ h')).1,
            (hsc n' (List.mem_cons_of_mem _ h')).2⟩
          · exact (hκ n' (List.mem_cons_of_mem _ h')).trans
              (hκ s (List.mem_cons_self _ _)).symm
          · exact (hext n' (List.mem_cons_of_mem _ h') s (List.mem_cons_self _ _)).1
          · exact (hext n' (List.mem_cons_of_mem _ h') s (List.mem_cons_self _ _)).2)
      have hmg : mergeGroup (s :: rest) = mergeRun (initCross s) rest := rfl
      rw [hmg, hrw]
      rw [show (initCross s).kind = s.kind from rfl]
      rw [show (initCross s).lo = s.lo from rfl]
      rw [show (initCross s).hi = s.hi from rfl]
      constructor
      · rintro (⟨h1, h2, h3, h4⟩ | ⟨n, hn, hc⟩)
        · refine ⟨s, List.mem_cons_self _ _, ?_⟩
          rw [coversB_eq, hss.1, hss.2]
          exact ⟨h1, h2, h3, h4⟩
        · exact ⟨n, List.mem_cons_of_mem _ hn, hc⟩
      · rintro ⟨s', hs', hc⟩
        rcases List.mem_cons.mp hs' with heq | hs''
        · subst heq
          rw [coversB_eq, hss.1, hss.2] at hc
          exact Or.inl hc
        · exact Or.inr ⟨s', hs'', hc⟩

theorem mergeGroup_fields (κ : SegKind) (k : Nat × Nat) :
    ∀ (gs : List Segment),
      (∀ s ∈ gs, s.kind = κ ∧ s.lo = k.1 ∧ s.hi = k.2) →
      ∀ o ∈ mergeGroup gs, o.kind = κ ∧ o.lo = k.1 ∧ o.hi = k.2
  | [], _ => by
      intro o ho
      simp [mergeGroup] at ho
  | s :: rest, hall => by
      intro o ho
      have hs := hall s (List.mem_cons_self _ _)
      exact mergeRun_fields rest (initCross s) hs.1 hs.2.1 hs.2.2
        (fun n' h' => hall n' (List.mem_cons_of_mem _ h')) o ho

theorem mergeGroup_ne_nil {gs : List Segment} (h : gs ≠ []) : mergeGroup gs ≠ [] := by
  cases gs with
  | nil => exact absurd rfl h
  | cons s rest =>
      obtain ⟨hd, t, heq, _, _⟩ := mergeRun_cons rest (initCross s)
      have hmg : mergeGroup (s :: rest) = mergeRun (initCross s) rest := rfl
      rw [hmg, heq]
      exact List.cons_ne_nil hd t

theorem foldl_insertIntoGroups_pass :
    ∀ (segs : List Segment) (k : Nat × Nat) (B : List Segment)
      (acc : List ((Nat × Nat) × List Segment)),
      (∀ s ∈ segs, extentKey s ≠ k) →
      List.foldl insertIntoGroups ((k, B) :: acc) segs =
        (k, B) :: List.foldl insertIntoGroups acc segs
  | [], _, _, _, _ => rfl
  | t :: rest, k, B, acc, hne => by
      rw [List.foldl_cons, List.foldl_cons]
      have hstep : insertIntoGroups ((k, B) :: acc) t = (k, B) :: insertIntoGroups acc t := by
        rw [insertIntoGroups, if_neg (hne t (List.mem_cons_self _ _))]
      rw [hstep]
      exact foldl_insertIntoGroups_pass rest k B (insertIntoGroups acc t)
        (fun s hs => hne s (List.mem_cons_of_mem _ hs))

theorem foldl_insertIntoGroups_homog :
    ∀ (B : List Segment) (k : Nat × Nat) (l : List Segment),
      (∀ s ∈ B, extentKey s = k) →
      List.foldl insertIntoGroups [(k, l)] B = [(k, l ++ B)]
  | [], k, l, _ => by simp
  | t :: rest, k, l, hhom => by
      rw [List.foldl_cons]
      have hstep : insertIntoGroups [(k, l)] t = [(k, l ++ [t])] := by
        rw [insertIntoGroups, if_pos (hhom t (List.mem_cons_self _ _))]
      rw [hstep]
      rw [foldl_insertIntoGroups_homog rest k (l ++ [t])
        (fun s hs => hhom s (List.mem_cons_of_mem _ hs))]
      simp

theorem groupByExtent_blocks :
    ∀ (blocks : List ((Nat × Nat) × List Segment)),
      (∀ kl ∈ blocks, kl.2 ≠ []) →
      (∀ kl ∈ blocks, ∀ s ∈ kl.2, extentKey s = kl.1) →
      (blocks.map Prod.fst).Nodup →
      groupByExtent (blocks.flatMap Prod.snd) = blocks
  | [], _, _, _ => rfl
  | (k, B) :: rest, hne, hhom, hnd => by
      rw [List.flatMap_cons]
      simp only [groupByExtent]
      rw [List.foldl_append]
      have hB : List.foldl insertIntoGroups [] B = [(k, B)] := by
        cases B with
        | nil => exact absurd rfl (hne (k, []) (List.mem_cons_self _ _))
        | cons b B' =>
            rw [List.foldl_cons]
            have h1 : insertIntoGroups [] b = [(extentKey b, [b])] := rfl
            have hkb : extentKey b = k :=
              hhom (k, b :: B') (List.mem_cons_self _ _) b (List.mem_cons_self _ _)
            rw [h1, hkb]
            rw [foldl_insertIntoGroups_homog B' k [b]
              (fun s hs => hhom (k, b :: B') (List.mem_cons_self _ _) s
                (List.mem_cons_of_mem _ hs))]
            rw [List.singleton_append]
      rw [hB]
      rw [List.map_cons] at hnd
      rcases List.nodup_cons.mp hnd with ⟨hknotin, hndrest⟩
      have hpass : ∀ s ∈ rest.flatMap Prod.snd, extentKey s ≠ k := by
        intro s hs hks
        obtain ⟨kl, hkl, hs'⟩ := List.mem_flatMap.mp hs
        have hkey : extentKey s = kl.1 := hhom kl (List.mem_cons_of_mem _ hkl) s hs'
        exact hknotin (by
          rw [← hks, hkey]
          exact List.mem_map.mpr ⟨kl, hkl, rfl⟩)
      rw [foldl_insertIntoGroups_pass _ k B [] hpass]
      have htail : List.foldl insertIntoGroups [] (rest.flatMap Prod.snd) = rest := by
        have := groupByExtent_blocks rest
          (fun kl h => hne kl (List.mem_cons_of_mem _ h))
          (fun kl h => hhom kl (List.mem_cons_of_mem _ h))
          hndrest
        simpa only [groupByExtent] using this
      rw [htail]

theorem flatMap_congr_mem {α β : Type} :
    ∀ (l : List α) (f g : α → List β), (∀ a ∈ l, f a = g a) →
      l.flatMap f = l.flatMap g
  | [], _, _, _ => rfl
  | a :: t, f, g, h => by
      rw [List.flatMap_cons, List.flatMap_cons, h a (List.mem_cons_self _ _),
        flatMap_congr_mem t f g (fun b hb => h b (List.mem_cons_of_mem _ hb))]

theorem sortByPos_ne_nil {l : List Segment} (h : l ≠ []) : sortByPos l ≠ [] := by
  cases l with
  | nil => exact absurd rfl h
  | cons s t =>
      exact List.ne_nil_of_mem (mem_sortByPos.mpr (List.mem_cons_self s t))

theorem mem_mergeAligned_of_group {L : List Segment} (hL : L ≠ [])
    {kl : (Nat × Nat) × List Segment} (hkl : kl ∈ groupByExtent L)
    {o : Segment} (ho : o ∈ mergeGroup (sortByPos kl.2)) : o ∈ mergeAligned L := by
  rw [mergeAligned, if_neg hL]
  exact List.mem_flatMap.mpr ⟨kl, hkl, ho⟩

theorem mergeAligned_covered (κ : SegKind) (L : List Segment)
    (hκ : ∀ s ∈ L, s.kind = κ)
    (hsc : ∀ s ∈ L, s.clo.getD s.pos = s.pos ∧ s.chi.getD s.pos = s.pos)
    (c : Nat × Nat) : coveredB (mergeAligned L) c = coveredB L c := by
  by_cases hL : L = []
  · subst hL
    rfl
  · rw [Bool.eq_iff_iff]
    rw [mergeAligned, if_neg hL]
    rw [coveredB, List.any_eq_true]
    rw [coveredB, List.any_eq_true]
    have hgroup : ∀ kl ∈ groupByExtent L,
        (coveredB (mergeGroup (sortByPos kl.2)) c = true ↔
          ∃ s ∈ sortByPos kl.2, coversB s c = true) := by
      intro kl hkl
      have hmem : ∀ s ∈ sortByPos kl.2, s ∈ L :=
        fun s hs => mem_groupByExtent.mp ⟨kl, hkl, mem_sortByPos.mp hs⟩
      refine mergeGroup_covered κ (sortByPos kl.2) c
        (fun s hs => hκ s (hmem s hs)) (fun s hs => hsc s (hmem s hs)) ?_
      intro s hs s' hs'
      have e1 := groupByExtent_keyed L kl hkl s (mem_sortByPos.mp hs)
      have e2 := groupByExtent_keyed L kl hkl s' (mem_sortByPos.mp hs')
      constructor
      · show (extentKey s).1 = (extentKey s').1
        rw [e1, e2]
      · show (extentKey s).2 = (extentKey s').2
        rw [e1, e2]
    constructor
    · rintro ⟨o, ho, hc⟩
      obtain ⟨kl, hkl, ho'⟩ := List.mem_flatMap.mp ho
      have hcov : coveredB (mergeGroup (sortByPos kl.2)) c = true :=
        List.any_eq_true.mpr ⟨o, ho', hc⟩
      obtain ⟨s, hs, hsc'⟩ := (hgroup kl hkl).mp hcov
      exact ⟨s, mem_groupByExtent.mp ⟨kl, hkl, mem_sortByPos.mp hs⟩, hsc'⟩
    · rintro ⟨s, hsL, hc⟩
      obtain ⟨kl, hkl, hskl⟩ := mem_groupByExtent.mpr hsL
      have hcov := (hgroup kl hkl).mpr ⟨s, mem_sortByPos.mpr hskl, hc⟩
      obtain ⟨o, ho', hc'⟩ := List.any_eq_true.mp hcov
      exact ⟨o, List.mem_flatMap.mpr ⟨kl, hkl, ho'⟩, hc'⟩

theorem mergeAligned_kind (κ : SegKind) (L : List Segment)
    (hκ : ∀ s ∈ L, s.kind = κ) : ∀ o ∈ mergeAligned L, o.kind = κ := by
  by_cases hL : L = []
  · subst hL
    intro o ho
    exact absurd ho (List.not_mem_nil o)
  · rw [mergeAligned, if_neg hL]
    intro o ho
    obtain ⟨kl, hkl, ho'⟩ := List.mem_flatMap.mp ho
    have hmem : ∀ s ∈ sortByPos kl.2, s ∈ L :=
      fun s hs => mem_groupByExtent.mp ⟨kl, hkl, mem_sortByPos.mp hs⟩
    refine (mergeGroup_fields κ kl.1 (sortByPos kl.2) ?_ o ho').1
    intro s hs
    have hkey := groupByExtent_keyed L kl hkl s (mem_sortByPos.mp hs)
    exact ⟨hκ s (hmem s hs), (show (extentKey s).1 = kl.1.1 by rw [hkey]),
      (show (extentKey s).2 = kl.1.2 by rw [hkey])⟩

theorem mergeAligned_fixpoint (κ : SegKind) (L : List Segment)
    (hκ : ∀ s ∈ L, s.kind = κ)
    (hsc : ∀ o ∈ mergeAligned L, o.clo = some o.pos ∧ o.chi = some o.pos) :
    mergeAligned (mergeAligned L) = mergeAligned L := by
  by_cases hL : L = []
  · subst hL
    rfl
  · have hMA : mergeAligned L =
        ((groupByExtent L).map
          (fun kl => (kl.1, mergeGroup (sortByPos kl.2)))).flatMap Prod.snd := by
      rw [mergeAligned, if_neg hL]
      rw [show ((groupByExtent L).map
          (fun kl => (kl.1, mergeGroup (sortByPos kl.2)))).flatMap Prod.snd =
          (groupByExtent L).flatMap
            (fun kl => mergeGroup (sortByPos kl.2)) from by
        induction groupByExtent L with
        | nil => rfl
        | cons kl rest ih => simp only [List.map_cons, List.flatMap_cons, ih]]
    set blocks := (groupByExtent L).map
      (fun kl => (kl.1, mergeGroup (sortByPos kl.2))) with hblocks
    have hne : ∀ kl ∈ blocks, kl.2 ≠ [] := by
      intro kl hkl
      obtain ⟨kl₀, hkl₀, rfl⟩ := List.mem_map.mp hkl
      exact mergeGroup_ne_nil (sortByPos_ne_nil (groupByExtent_ne_nil L kl₀ hkl₀))
    have hhom : ∀ kl ∈ blocks, ∀ s ∈ kl.2, extentKey s = kl.1 := by
      intro kl hkl s hs
      obtain ⟨kl₀, hkl₀, rfl⟩ := List.mem_map.mp hkl
      have hfields := mergeGroup_fields κ kl₀.1 (sortByPos kl₀.2) ?_ s hs
      · have h1 := hfields.2.1
        have h2 := hfields.2.2
        show (s.lo, s.hi) = kl₀.1
        rw [h1, h2]
      · intro s' hs'
        have hsL : s' ∈ L := mem_groupByExtent.mp ⟨kl₀, hkl₀, mem_sortByPos.mp hs'⟩
        have hkey := groupByExtent_keyed L kl₀ hkl₀ s' (mem_sortByPos.mp hs')
        exact ⟨hκ s' hsL, (show (extentKey s').1 = kl₀.1.1 by rw [hkey]),
          (show (extentKey s').2 = kl₀.1.2 by rw [hkey])⟩
    have hdist : (blocks.map Prod.fst).Nodup := by
      have : blocks.map Prod.fst = (groupByExtent L).map Prod.fst := by
        rw [hblocks, List.map_map]
        rfl
      rw [this]
      exact groupByExtent_keys_nodup L
    have hMAne : mergeAligned L ≠ [] := by
      obtain ⟨s, hsL⟩ := List.exists_mem_of_ne_nil L hL
      obtain ⟨kl, hkl, hskl⟩ := mem_groupByExtent.mpr hsL
      have hgne := mergeGroup_ne_nil (sortByPos_ne_nil (groupByExtent_ne_nil L kl hkl))
      obtain ⟨o, ho⟩ := List.exists_mem_of_ne_nil _ hgne
      exact List.ne_nil_of_mem (mem_mergeAligned_of_group hL hkl ho)
    rw [mergeAligned, if_neg hMAne]
    rw [show groupByExtent (mergeAligned L) = blocks from by
      rw [hMA]
      exact groupByExtent_blocks blocks hne hhom hdist]
    have hfix : ∀ kl ∈ blocks, mergeGroup (sortByPos kl.2) = kl.2 := by
      intro kl hkl
      obtain ⟨kl₀, hkl₀, rfl⟩ := List.mem_map.mp hkl
      obtain ⟨s, rest, hgs⟩ :=
        List.exists_cons_of_ne_nil (sortByPos_ne_nil (groupByExtent_ne_nil L kl₀ hkl₀))
      have hBdef : mergeGroup (sortByPos kl₀.2) = mergeRun (initCross s) rest := by
        rw [hgs]
        rfl
      have hsorted : List.Pairwise (fun a b : Segment => a.pos ≤ b.pos)
          (mergeGroup (sortByPos kl₀.2)) := by
        rw [hBdef]
        have hps := sortByPos_sorted kl₀.2
        rw [hgs] at hps
        rcases List.pairwise_cons.mp hps with ⟨hhd, htl⟩
        exact (mergeRun_sorted rest (initCross s) htl hhd).1
      have hchain : List.Chain' (fun a b : Segment => b.pos ≠ chiv a + 1)
          (mergeGroup (sortByPos kl₀.2)) := by
        rw [hBdef]
        exact mergeRun_chain rest (initCross s)
      have hmemM : ∀ o ∈ mergeGroup (sortByPos kl₀.2), o ∈ mergeAligned L :=
        fun o ho => mem_mergeAligned_of_group hL hkl₀ ho
      rw [sortByPos_sorted_id hsorted]
      obtain ⟨hd, t, hcons⟩ :=
        List.exists_cons_of_ne_nil
          (mergeGroup_ne_nil (sortByPos_ne_nil (groupByExtent_ne_nil L kl₀ hkl₀)))
      rw [hcons]
      have hhd := hsc hd (hmemM hd (hcons ▸ List.mem_cons_self hd t))
      have ht : ∀ n ∈ t, n.clo = some n.pos ∧ n.chi = some n.pos :=
        fun n hn => hsc n (hmemM n (hcons ▸ List.mem_cons_of_mem hd hn))
      have hchain2 : List.Chain' (fun a b : Segment => b.pos ≠ chiv a + 1) (hd :: t) := by
        rw [← hcons]
        exact hchain
      have hmg : mergeGroup (hd :: t) = mergeRun (initCross hd) t := rfl
      rw [hmg, initCross_eq_self hhd.1 hhd.2]
      exact mergeRun_fixpoint t hd hhd.1 hhd.2 ht hchain2
    rw [flatMap_congr_mem blocks (fun kl => mergeGroup (sortByPos kl.2)) Prod.snd hfix]
    rw [← hMA]

/-! ## `merge_segments` top level. -/

theorem isHorizontal_iff {s : Segment} :
    isHorizontal s = true ↔ s.kind = SegKind.horizontal := by
  cases hk : s.kind <;> simp [isHorizontal, hk]

theorem isVertical_iff {s : Segment} :
    isVertical s = true ↔ s.kind = SegKind.vertical := by
  cases hk : s.kind <;> simp [isVertical, hk]

theorem isHorizontal_eq_false {s : Segment} :
    isHorizontal s = false ↔ s.kind = SegKind.vertical := by
  cases hk : s.kind <;> simp [isHorizontal, hk]

theorem isVertical_eq_false {s : Segment} :
    isVertical s = false ↔ s.kind = SegKind.horizontal := by
  cases hk : s.kind <;> simp [isVertical, hk]

theorem mergeSegments_eq {S : List Segment} (hS : S ≠ []) :
    mergeSegments S =
      mergeAligned (S.filter isHorizontal) ++ mergeAligned (S.filter isVertical) := by
  rw [mergeSegments,
    if_neg (show ¬S.length = 0 from fun h => hS (List.length_eq_zero.mp h))]
  rfl

theorem filter_append_of_kinds {A B : List Segment} (p : Segment → Bool)
    (hA : ∀ s ∈ A, p s = true) (hB : ∀ s ∈ B, p s = false) :
    (A ++ B).filter p = A := by
  rw [List.filter_append, List.filter_eq_self.mpr hA]
  have : B.filter p = [] := by
    rw [List.filter_eq_nil]
    intro s hs
    rw [hB s hs]
    exact Bool.false_ne_true
  rw [this, List.append_nil]

theorem filter_append_of_kinds' {A B : List Segment} (p : Segment → Bool)
    (hA : ∀ s ∈ A, p s = false) (hB : ∀ s ∈ B, p s = true) :
    (A ++ B).filter p = B := by
  rw [List.filter_append, List.filter_eq_self.mpr hB]
  have : A.filter p = [] := by
    rw [List.filter_eq_nil]
    intro s hs
    rw [hA s hs]
    exact Bool.false_ne_true
  rw [this, List.nil_append]

theorem coveredB_append (A B : List Segment) (c : Nat × Nat) :
    coveredB (A ++ B) c = (coveredB A c || coveredB B c) := by
  simp [coveredB, List.any_append]

theorem coveredB_partition (S : List Segment) (c : Nat × Nat) :
    coveredB S c =
      (coveredB (S.filter isHorizontal) c || coveredB (S.filter isVertical) c) := by
  induction S with
  | nil => rfl
  | cons s t ih =>
      cases hk : s.kind
      · have h1 : isHorizontal s = true := isHorizontal_iff.mpr hk
        have h2 : isVertical s = false := isVertical_eq_false.mpr hk
        simp only [coveredB, List.filter_cons, h1, h2] at ih ⊢
        simp only [if_true, Bool.false_eq_true, if_false, List.any_cons]
        rw [ih]
        rw [Bool.or_assoc]
      · have h1 : isHorizontal s = false := isHorizontal_eq_false.mpr hk
        have h2 : isVertical s = true := isVertical_iff.mpr hk
        simp only [coveredB, List.filter_cons, h1, h2] at ih ⊢
        simp only [if_true, Bool.false_eq_true, if_false, List.any_cons]
        rw [ih]
        rw [Bool.or_left_comm]

/-! ## Emptiness and noise-analysis lemmas for the enhancer. -/

theorem occupiedCells_nil {m : Nat → Nat → Bool} {h w : Nat}
    (hm : ∀ y x, y < h → x < w → m y x = false) : occupiedCells m h w = [] := by
  rw [occupiedCells]
  rw [List.flatMap_eq_nil_iff]
  intro y hy
  rw [List.map_eq_nil_iff, List.filter_eq_nil]
  intro x hx
  rw [hm y x (List.mem_range.mp hy) (List.mem_range.mp hx)]
  exact Bool.false_ne_true

theorem analyzeMapNoise_allFree {g : Grid}
    (hm : ∀ y x, y < g.height → x < g.width → analyzerMask g y x = false) :
    analyzeMapNoise g = ⟨0, 0, [], 0⟩ := by
  rw [analyzeMapNoise]
  rw [show (occupiedCells (analyzerMask g) g.height g.width).length = 0 from by
    rw [occupiedCells_nil hm]
    rfl]
  rfl

theorem hasGrainyBoundaries_zero : ¬hasGrainyBoundaries ⟨0, 0, [], 0⟩ := by
  rw [hasGrainyBoundaries]
  norm_num

theorem enhancePGM_noop (p : EnhanceParams) (g : Grid)
    (hlevel : (analyzeMapNoise g).noiseLevel = 0) :
    enhancePGM p g true false = (g, false) := by
  rw [enhancePGM]
  simp only [if_true]
  rw [hlevel]
  rfl

theorem getAdaptiveParameters_level0 :
    getAdaptiveParameters 0 false = ⟨0, 0, 0, 0, 3, false, EnhanceTag.noneTag⟩ := rfl

/-! ## Emptiness of aggregation on an all-free mask. -/

theorem aggregateHorizontal_nil {occ : Nat → Nat → Bool} {h w : Nat}
    (hocc : ∀ y x, y < h → x < w → occ y x = false) :
    aggregateHorizontal occ h w = [] := by
  rw [aggregateHorizontal, List.flatMap_eq_nil_iff]
  intro y hy
  rw [scanLine_nil (fun x => occ y x) w 0 (fun z hz => hocc y z (List.mem_range.mp hy) hz)]
  rfl

theorem aggregateVertical_nil {occ : Nat → Nat → Bool} {h w : Nat}
    {hsegs : List Segment} (hocc : ∀ y x, y < h → x < w → occ y x = false) :
    aggregateVertical occ h w hsegs = [] := by
  rw [aggregateVertical, List.flatMap_eq_nil_iff]
  intro x hx
  rw [scanLine_nil (fun y => gridForVertical occ hsegs y x) h 0 ?_]
  · rfl
  · intro z hz
    cases hg : gridForVertical occ hsegs z x with
    | false => exact hg
    | true =>
        have := gridForVertical_le hg
        rw [hocc z x hz (List.mem_range.mp hx)] at this
        cases this

/-! ## Concrete fixtures used by counterexamples and witnesses. -/

/-- The 1×1 all-occupied mask. -/
def mask1x1 : Nat → Nat → Bool := fun _ _ => true

/-- A one-cell horizontal segment dict at row 0, columns 0–0. -/
def segA : Segment := ⟨SegKind.horizontal, 0, 0, 0, none, none, 1⟩

/-- A one-cell horizontal segment dict at row 1, columns 0–0. -/
def segB : Segment := ⟨SegKind.horizontal, 1, 0, 0, none, none, 1⟩

/-- A horizontal segment dict that already carries a merged two-row
cross-extent (`start_y = 0`, `end_y = 1`, `y = 0`). -/
def segPre : Segment := ⟨SegKind.horizontal, 0, 0, 0, some 0, some 1, 1⟩

/-- A 1×1 grid whose only pixel is 255 (pure white, all free). -/
def grid255 : Grid := ⟨1, 1, fun _ _ => 255⟩

/-- A 1×1 grid whose only pixel is 100 (dark: occupied for the noise
analyzer, free for the extractor's default thresholds). -/
def grid100 : Grid := ⟨1, 1, fun _ _ => 100⟩

/-- A 1×1 grid whose only pixel is 130 (free under both binarisations). -/
def grid130 : Grid := ⟨1, 1, fun _ _ => 130⟩

/-- A 1×2 grid with a black pixel at column 0 and a bright pixel (200) at
column 1. -/
def gridDark : Grid := ⟨1, 2, fun _ x => if x = 1 then 200 else 0⟩

/-- A 1×1 all-black grid. -/
def gridZero : Grid := ⟨1, 1, fun _ _ => 0⟩

/-- A 1×2 8-bit grid that happens to contain only the values 0 and 1. -/
def grid01 : Grid := ⟨1, 2, fun _ x => if x = 0 then 1 else 0⟩

/-- The all-true mask of a 1×1 fully occupied grid (used to evaluate the
component analysis on concrete inputs). -/
def maskTrue : Nat → Nat → Bool := fun _ _ => true

/-! ## Definitions written from the spec's words, for comparison with the
code's definitions (refinement claims C2 and C10). -/

/-- Modelled from the spec (claim C2's words): with `negate = 0` low
intensity means occupied, so the occupancy probability is the complement of
the normalised value; with `negate = 1` the interpretation is reversed; a
cell is marked 1 iff the probability strictly exceeds the occupied
threshold. -/
def specNegateOccupiedCell (g : Grid) (negate : Bool) (occupiedThresh : ℚ)
    (y x : Nat) : Bool :=
  let occupancyProb : ℚ :=
    if negate then normalizedVal g y x else 1 - normalizedVal g y x
  decide (occupiedThresh < occupancyProb)

/-- Modelled from claim C10's comparison: the extractor's binarisation as it
would read the same bytes under the unconditional 8-bit interpretation
(always divide by 255). -/
def getOccupiedGridScaled (g : Grid) (negate : Bool) (occupiedThresh : ℚ)
    (y x : Nat) : Bool :=
  let occupancyProb : ℚ :=
    if negate then 1 - (g.val y x : ℚ) / 255 else (g.val y x : ℚ) / 255
  decide (occupiedThresh ≤ occupancyProb)

/-- Modelled from claim C10's comparison: the noise analyzer's mask under the
unconditional 8-bit interpretation. -/
def analyzerMaskScaled (g : Grid) (y x : Nat) : Bool :=
  decide ((g.val y x : ℚ) / 255 < 1 / 2)

/-! ## The claims. -/

/-- C6: for every pixel coordinate pair and every positive resolution, origin
and grid height, `_pixel_to_world` returns exactly
`world_x = origin_x + pixel_x * resolution` and
`world_y = origin_y + (grid_height - pixel_y) * resolution`; the vertical
flip makes the world Y coordinate strictly decrease as the row index grows. -/
theorem claim_C6 (origin : ℚ × ℚ) (resolution : ℚ) (height : Nat) (px py : ℚ)
    (hres : 0 < resolution) :
    pixelToWorld origin resolution height (px, py) =
      (origin.1 + px * resolution, origin.2 + ((height : ℚ) - py) * resolution) ∧
    (∀ py₁ py₂ : ℚ, py₁ < py₂ →
      (pixelToWorld origin resolution height (px, py₂)).2 <
        (pixelToWorld origin resolution height (px, py₁)).2) := by
  constructor
  · rfl
  · intro py₁ py₂ h
    simp only [pixelToWorld]
    have hmul : ((height : ℚ) - py₂) * resolution < ((height : ℚ) - py₁) * resolution :=
      mul_lt_mul_of_pos_right (by linarith) hres
    linarith

theorem claim_C6_witness :
    pixelToWorld (0, 0) (1 / 20) 5 (1 / 2, 3 / 2) =
      ((0 : ℚ) + (1 / 2) * (1 / 20), (0 : ℚ) + ((5 : ℚ) - 3 / 2) * (1 / 20)) :=
  (claim_C6 (0, 0) (1 / 20) 5 (1 / 2) (3 / 2) (by norm_num)).1

/-- C4 (amended): merging preserves the union of covered cells for every
sequence of single-cross segments (segments that cover exactly their own
row resp. column, as the aggregator produces them); for segments that
already carry a wider merged cross-extent the merger resets that extent and
coverage is lost (see the counterexample). -/
theorem claim_C4 (S : List Segment)
    (hbasic : ∀ s ∈ S, s.clo.getD s.pos = s.pos ∧ s.chi.getD s.pos = s.pos)
    (c : Nat × Nat) :
    coveredB (mergeSegments S) c = coveredB S c := by
  by_cases hS : S = []
  · subst hS
    rfl
  · rw [mergeSegments_eq hS, coveredB_append]
    rw [mergeAligned_covered SegKind.horizontal (S.filter isHorizontal)
      (fun s hs => isHorizontal_iff.mp (List.mem_filter.mp hs).2)
      (fun s hs => hbasic s (List.mem_filter.mp hs).1) c]
    rw [mergeAligned_covered SegKind.vertical (S.filter isVertical)
      (fun s hs => isVertical_iff.mp (List.mem_filter.mp hs).2)
      (fun s hs => hbasic s (List.mem_filter.mp hs).1) c]
    rw [← coveredB_partition]

theorem claim_C4_counterexample :
    coveredB [segPre] (1, 0) = true ∧ coveredB (mergeSegments [segPre]) (1, 0) = false := by
  decide

theorem claim_C4_witness :
    coveredB (mergeSegments [segA, segB]) (0, 0) = coveredB [segA, segB] (0, 0) :=
  claim_C4 [segA, segB] (by decide) (0, 0)

/-- C5 (amended): `merge_segments` is idempotent on every input whose merge
result consists of single-row / single-column segments (equivalently, on
whose merge no two segments were actually joined); when the first merge
produces a multi-row segment, the second merge resets its cross-extent and
the results differ (see the counterexample). -/
theorem claim_C5 (S : List Segment)
    (hsingle : ∀ o ∈ mergeSegments S, o.clo = some o.pos ∧ o.chi = some o.pos) :
    mergeSegments (mergeSegments S) = mergeSegments S := by
  by_cases hS : S = []
  · subst hS
    rfl
  · have hM := mergeSegments_eq hS
    by_cases hMnil : mergeSegments S = []
    · rw [hMnil]
      rfl
    · have hMHkindT : ∀ o ∈ mergeAligned (S.filter isHorizontal), isHorizontal o = true :=
        fun o ho => isHorizontal_iff.mpr
          (mergeAligned_kind SegKind.horizontal _
            (fun s hs => isHorizontal_iff.mp (List.mem_filter.mp hs).2) o ho)
      have hMVkindF : ∀ o ∈ mergeAligned (S.filter isVertical), isHorizontal o = false :=
        fun o ho => isHorizontal_eq_false.mpr
          (mergeAligned_kind SegKind.vertical _
            (fun s hs => isVertical_iff.mp (List.mem_filter.mp hs).2) o ho)
      have hMHkindF : ∀ o ∈ mergeAligned (S.filter isHorizontal), isVertical o = false :=
        fun o ho => isVertical_eq_false.mpr
          (mergeAligned_kind SegKind.horizontal _
            (fun s hs => isHorizontal_iff.mp (List.mem_filter.mp hs).2) o ho)
      have hMVkindT : ∀ o ∈ mergeAligned (S.filter isVertical), isVertical o = true :=
        fun o ho => isVertical_iff.mpr
          (mergeAligned_kind SegKind.vertical _
            (fun s hs => isVertical_iff.mp (List.mem_filter.mp hs).2) o ho)
      have hscH : ∀ o ∈ mergeAligned (S.filter isHorizontal),
          o.clo = some o.pos ∧ o.chi = some o.pos := by
        intro o ho
        refine hsingle o ?_
        rw [hM]
        exact List.mem_append.mpr (Or.inl ho)
      have hscV : ∀ o ∈ mergeAligned (S.filter isVertical),
          o.clo = some o.pos ∧ o.chi = some o.pos := by
        intro o ho
        refine hsingle o ?_
        rw [hM]
        exact List.mem_append.mpr (Or.inr ho)
      rw [mergeSegments_eq hMnil]
      rw [show (mergeSegments S).filter isHorizontal =
          mergeAligned (S.filter isHorizontal) from by
        rw [hM]
        exact filter_append_of_kinds isHorizontal hMHkindT hMVkindF]
      rw [show (mergeSegments S).filter isVertical =
          mergeAligned (S.filter isVertical) from by
        rw [hM]
        exact filter_append_of_kinds' isVertical hMHkindF hMVkindT]
      rw [mergeAligned_fixpoint SegKind.horizontal (S.filter isHorizontal)
        (fun s hs => isHorizontal_iff.mp (List.mem_filter.mp hs).2) hscH]
      rw [mergeAligned_fixpoint SegKind.vertical (S.filter isVertical)
        (fun s hs => isVertical_iff.mp (List.mem_filter.mp hs).2) hscV]
      rw [← hM]

theorem claim_C5_counterexample :
    mergeSegments (mergeSegments [segA, segB]) ≠ mergeSegments [segA, segB] := by
  decide

theorem claim_C5_witness :
    mergeSegments (mergeSegments [segA]) = mergeSegments [segA] :=
  claim_C5 [segA] (by decide)

/-- C2 (amended): `_get_occupied_grid` honours the negation flag in the
reverse of the claimed sense — with `negate = 0` the occupancy probability is
the normalised intensity itself (bright cells get high probability), with
`negate = 1` it is the complement (dark means occupied) — and the threshold
test is non-strict (`>=`); consequently any cell the spec's convention marks
occupied under flag `n` (strictly) is marked occupied by the code under the
opposite flag. -/
theorem claim_C2 (g : Grid) (negate : Bool) (occupiedThresh : ℚ) (y x : Nat) :
    (getOccupiedGrid g negate occupiedThresh y x = true ↔
      occupiedThresh ≤
        (if negate = true then 1 - normalizedVal g y x else normalizedVal g y x)) ∧
    (specNegateOccupiedCell g (!negate) occupiedThresh y x = true →
      getOccupiedGrid g negate occupiedThresh y x = true) := by
  constructor
  · rw [getOccupiedGrid]
    simp only [decide_eq_true_eq]
  · intro hspec
    simp only [specNegateOccupiedCell, decide_eq_true_eq] at hspec
    simp only [getOccupiedGrid, decide_eq_true_eq]
    cases negate with
    | false =>
        simp only [Bool.not_false, if_true] at hspec
        simp only [Bool.false_eq_true, if_false]
        linarith
    | true =>
        simp only [Bool.not_true, Bool.false_eq_true, if_false] at hspec
        simp only [if_true]
        linarith

theorem claim_C2_counterexample :
    getOccupiedGrid gridDark false (13 / 20) 0 0 = false ∧
    specNegateOccupiedCell gridDark false (13 / 20) 0 0 = true := by
  constructor
  · simp only [getOccupiedGrid, normalizedVal,
      show gridMax gridDark = 200 from by decide,
      show gridDark.val 0 0 = 0 from by decide]
    norm_num
  · simp only [specNegateOccupiedCell, normalizedVal,
      show gridMax gridDark = 200 from by decide,
      show gridDark.val 0 0 = 0 from by decide]
    norm_num

theorem claim_C2_witness : getOccupiedGrid gridDark true (13 / 20) 0 0 = true :=
  (claim_C2 gridDark true (13 / 20) 0 0).2 (by
    simp only [specNegateOccupiedCell, normalizedVal, Bool.not_true,
      show gridMax gridDark = 200 from by decide,
      show gridDark.val 0 0 = 0 from by decide]
    norm_num)

/-- C3 (amended): with adaptive mode on, when noise analysis classifies the
map as clean with no grainy boundaries, the Enhancer returns the input grid
unchanged with `was_enhanced = false`; with adaptive mode off it always
applies the default-parameter standard enhancement and returns
`was_enhanced = true` (see the counterexample for the original claim's
"adaptive off" disjunct). -/
theorem claim_C3 (p : EnhanceParams) (g : Grid) (grainy : Bool)
    (hgr : grainy = true ↔ hasGrainyBoundaries (analyzeMapNoise g))
    (hclean : (analyzeMapNoise g).noiseLevel = 0)
    (hnograin : ¬hasGrainyBoundaries (analyzeMapNoise g)) :
    enhancePGM p g true grainy = (g, false) ∧
      ∀ b : Bool, (enhancePGM p g false b).2 = true := by
  constructor
  · have hb : grainy = false := by
      cases grainy with
      | false => rfl
      | true => exact absurd (hgr.mp rfl) hnograin
    rw [hb]
    exact enhancePGM_noop p g hclean
  · intro b
    rfl

theorem claim_C3_counterexample :
    grid255.val 0 0 = 255 ∧
    (enhancePGM defaultEnhanceParams grid255 false false).2 = true ∧
    (enhancePGM defaultEnhanceParams grid255 false false).1.val 0 0 = 254 := by
  refine ⟨rfl, rfl, ?_⟩
  decide

theorem claim_C3_witness :
    enhancePGM defaultEnhanceParams grid255 true false = (grid255, false) ∧
    (enhancePGM defaultEnhanceParams grid255 false false).2 = true := by
  have hz : analyzeMapNoise grid255 = ⟨0, 0, [], 0⟩ := by
    refine analyzeMapNoise_allFree ?_
    intro y x hy hx
    have hy1 : y < 1 := hy
    have hx1 : x < 1 := hx
    have hy0 : y = 0 := by omega
    have hx0 : x = 0 := by omega
    subst hy0
    subst hx0
    simp only [analyzerMask, normalizedVal,
      show gridMax grid255 = 255 from by decide,
      show grid255.val 0 0 = 255 from rfl]
    norm_num
  have h := claim_C3 defaultEnhanceParams grid255 false
    (by
      rw [hz]
      exact iff_of_false (by simp) hasGrainyBoundaries_zero)
    (by rw [hz])
    (by
      rw [hz]
      exact hasGrainyBoundaries_zero)
  exact ⟨h.1, h.2 false⟩

theorem analyzeMapNoise_level (g : Grid) :
    (analyzeMapNoise g).noiseLevel =
      if 14 / 100 < (analyzeMapNoise g).smallComponentRatio then 2
      else if 1 / 10 < (analyzeMapNoise g).smallComponentRatio ∧
          5 < (analyzeMapNoise g).fragmentationScore then 1
      else 0 := by
  by_cases h1 : (occupiedCells (analyzerMask g) g.height g.width).length = 0
  · simp only [analyzeMapNoise, if_pos h1]
    norm_num
  · by_cases h2 : numComponents (analyzerMask g) g.height g.width = 0
    · simp only [analyzeMapNoise, if_neg h1, if_pos h2]
      norm_num
    · simp only [analyzeMapNoise, if_neg h1, if_neg h2]

/-- C8: for every grid with at least one occupied cell (under the analyzer's
binarisation), the noise level is 2 iff `small_component_ratio > 0.14`
(strict), else 1 iff `small_component_ratio > 0.10` and
`fragmentation_score > 5.0` (both strict), else 0; in particular a ratio of
exactly 0.14 is never classified heavy while a ratio of 0.141 always is. -/
theorem claim_C8 (g : Grid)
    (hocc : ∃ y x, y < g.height ∧ x < g.width ∧ analyzerMask g y x = true) :
    ((analyzeMapNoise g).noiseLevel = 2 ↔
      14 / 100 < (analyzeMapNoise g).smallComponentRatio) ∧
    ((analyzeMapNoise g).noiseLevel = 1 ↔
      (¬(14 / 100 < (analyzeMapNoise g).smallComponentRatio) ∧
        1 / 10 < (analyzeMapNoise g).smallComponentRatio ∧
        5 < (analyzeMapNoise g).fragmentationScore)) ∧
    ((analyzeMapNoise g).noiseLevel = 0 ↔
      (¬(14 / 100 < (analyzeMapNoise g).smallComponentRatio) ∧
        ¬(1 / 10 < (analyzeMapNoise g).smallComponentRatio ∧
          5 < (analyzeMapNoise g).fragmentationScore))) ∧
    ((analyzeMapNoise g).smallComponentRatio = 14 / 100 →
      (analyzeMapNoise g).noiseLevel ≠ 2) ∧
    ((analyzeMapNoise g).smallComponentRatio = 141 / 1000 →
      (analyzeMapNoise g).noiseLevel = 2) := by
  have h := analyzeMapNoise_level g
  refine ⟨?_, ?_, ?_, ?_, ?_⟩ <;> rw [h]
  · split_ifs with hA hB
    · exact iff_of_true rfl hA
    · exact iff_of_false (by norm_num) hA
    · exact iff_of_false (by norm_num) hA
  · split_ifs with hA hB
    · exact iff_of_false (by norm_num) (fun hcon => hcon.1 hA)
    · exact iff_of_true rfl ⟨hA, hB⟩
    · exact iff_of_false (by norm_num) (fun hcon => hB ⟨hcon.2.1, hcon.2.2⟩)
  · split_ifs with hA hB
    · exact iff_of_false (by norm_num) (fun hcon => hcon.1 hA)
    · exact iff_of_false (by norm_num) (fun hcon => hcon.2 hB)
    · exact iff_of_true rfl ⟨hA, hB⟩
  · intro hr
    rw [hr]
    norm_num
    split_ifs <;> norm_num
  · intro hr
    rw [hr]
    norm_num

theorem claim_C8_witness :
    (analyzeMapNoise gridZero).noiseLevel = 2 ↔
      14 / 100 < (analyzeMapNoise gridZero).smallComponentRatio :=
  (claim_C8 gridZero ⟨0, 0, by decide, by decide, by
    simp only [analyzerMask, normalizedVal,
      show gridMax gridZero = 0 from by decide,
      show gridZero.val 0 0 = 0 from rfl]
    norm_num⟩).1

/-- C9 (amended): for every grid that is all-free under both binarisations —
no occupied cell in the extractor's OccupancyMask and none in the noise
analyzer's mask — the aggregator produces no segments and hence no walls,
and the adaptive enhancer reports all-zero clean metrics and returns the
input grid unchanged with `was_enhanced = false`.  (A grid may be all-free
for the extractor yet occupied for the analyzer, in which case the enhancer
does enhance; see the counterexample.) -/
theorem claim_C9 (g : Grid) (p : EnhanceParams) (resolution : ℚ) (origin : ℚ × ℚ)
    (occupiedThresh : ℚ) (negate : Bool) (enableMerging : Bool) (grainy : Bool)
    (hfree : ∀ y x, y < g.height → x < g.width →
      getOccupiedGrid g negate occupiedThresh y x = false)
    (hfree2 : ∀ y x, y < g.height → x < g.width → analyzerMask g y x = false)
    (hgr : grainy = true ↔ hasGrainyBoundaries (analyzeMapNoise g)) :
    aggregateHorizontal (getOccupiedGrid g negate occupiedThresh)
      g.height g.width = [] ∧
    aggregateVertical (getOccupiedGrid g negate occupiedThresh) g.height g.width
      (aggregateHorizontal (getOccupiedGrid g negate occupiedThresh)
        g.height g.width) = [] ∧
    extractWalls g resolution origin occupiedThresh negate enableMerging = [] ∧
    analyzeMapNoise g = ⟨0, 0, [], 0⟩ ∧
    enhancePGM p g true grainy = (g, false) := by
  have hh := aggregateHorizontal_nil hfree
  have hv : aggregateVertical (getOccupiedGrid g negate occupiedThresh)
      g.height g.width
      (aggregateHorizontal (getOccupiedGrid g negate occupiedThresh)
        g.height g.width) = [] := aggregateVertical_nil hfree
  have hz := analyzeMapNoise_allFree hfree2
  refine ⟨hh, hv, ?_, hz, ?_⟩
  · have hseg : aggregateHorizontal (getOccupiedGrid g negate occupiedThresh)
        g.height g.width ++
        aggregateVertical (getOccupiedGrid g negate occupiedThresh) g.height g.width
          (aggregateHorizontal (getOccupiedGrid g negate occupiedThresh)
            g.height g.width) = [] := by
      rw [hv, hh]
      rfl
    simp only [extractWalls]
    rw [hseg]
    cases enableMerging with
    | false => rfl
    | true => rfl
  · have hb : grainy = false := by
      cases grainy with
      | false => rfl
      | true =>
          exfalso
          have := hgr.mp rfl
          rw [hz] at this
          exact hasGrainyBoundaries_zero this
    rw [hb]
    refine enhancePGM_noop p g ?_
    rw [hz]

theorem claim_C9_counterexample :
    getOccupiedGrid grid100 false (13 / 20) 0 0 = false ∧
    (enhancePGM defaultEnhanceParams grid100 true false).2 = true ∧
    (enhancePGM defaultEnhanceParams grid100 true true).2 = true := by
  have hmask : analyzerMask grid100 = maskTrue := by
    funext y x
    simp only [analyzerMask, normalizedVal, maskTrue,
      show gridMax grid100 = 100 from by decide,
      show grid100.val y x = 100 from rfl]
    norm_num
  have h1 : analyzeMapNoise grid100 = ⟨1, 1, [], 2⟩ := by
    simp only [analyzeMapNoise, hmask]
    rw [show (occupiedCells maskTrue grid100.height grid100.width).length = 1 from
      by decide]
    rw [show numComponents maskTrue grid100.height grid100.width = 1 from by decide]
    rw [show smallComponentPixels maskTrue grid100.height grid100.width = 1 from
      by decide]
    rw [show roughnessSamples maskTrue grid100.height grid100.width = [] from
      by decide]
    norm_num
  refine ⟨?_, ?_, ?_⟩
  · simp only [getOccupiedGrid, normalizedVal,
      show gridMax grid100 = 100 from by decide,
      show grid100.val 0 0 = 100 from rfl]
    norm_num
  · simp only [enhancePGM, h1, getAdaptiveParameters]
    norm_num
  · simp only [enhancePGM, h1, getAdaptiveParameters]
    norm_num

theorem claim_C9_witness :
    extractWalls grid130 (1 / 20) (0, 0) (13 / 20) false true = [] ∧
    enhancePGM defaultEnhanceParams grid130 true false = (grid130, false) := by
  have hfree : ∀ y x, y < grid130.height → x < grid130.width →
      getOccupiedGrid grid130 false (13 / 20) y x = false := by
    intro y x hy hx
    simp only [getOccupiedGrid, normalizedVal,
      show gridMax grid130 = 130 from by decide,
      show grid130.val y x = 130 from rfl]
    norm_num
  have hfree2 : ∀ y x, y < grid130.height → x < grid130.width →
      analyzerMask grid130 y x = false := by
    intro y x hy hx
    simp only [analyzerMask, normalizedVal,
      show gridMax grid130 = 130 from by decide,
      show grid130.val y x = 130 from rfl]
    norm_num
  have hgr : (false = true) ↔ hasGrainyBoundaries (analyzeMapNoise grid130) := by
    rw [analyzeMapNoise_allFree hfree2]
    exact iff_of_false (by simp) hasGrainyBoundaries_zero
  have h := claim_C9 grid130 defaultEnhanceParams (1 / 20) (0, 0) (13 / 20)
    false true false hfree hfree2 hgr
  exact ⟨h.2.2.1, h.2.2.2.2⟩

/-- C10: both binarisations divide by 255 only when the grid's maximum value
exceeds 1 and use raw values as probabilities otherwise; consequently an
8-bit image containing only the values 0 and 1 is binarised as if it were
already normalised, and its mask differs from the one the same bytes would
get under the unconditional 8-bit (divide-by-255) interpretation. -/
theorem claim_C10 (g : Grid) (y x : Nat) :
    (gridMax g ≤ 1 → normalizedVal g y x = (g.val y x : ℚ)) ∧
    (1 < gridMax g → normalizedVal g y x = (g.val y x : ℚ) / 255) ∧
    (∀ y' x', grid01.val y' x' ≤ 1) ∧
    analyzerMask grid01 0 0 ≠ analyzerMaskScaled grid01 0 0 ∧
    getOccupiedGrid grid01 false (13 / 20) 0 0 ≠
      getOccupiedGridScaled grid01 false (13 / 20) 0 0 := by
  refine ⟨?_, ?_, ?_, ?_, ?_⟩
  · intro hle
    rw [normalizedVal, if_neg (by omega)]
  · intro hlt
    rw [normalizedVal, if_pos hlt]
  · intro y' x'
    by_cases hx : x' = 0 <;> simp [grid01, hx]
  · have hL : analyzerMask grid01 0 0 = false := by
      simp only [analyzerMask, normalizedVal,
        show gridMax grid01 = 1 from by decide,
        show grid01.val 0 0 = 1 from rfl]
      norm_num
    have hR : analyzerMaskScaled grid01 0 0 = true := by
      simp only [analyzerMaskScaled, show grid01.val 0 0 = 1 from rfl]
      norm_num
    rw [hL, hR]
    simp
  · have hL : getOccupiedGrid grid01 false (13 / 20) 0 0 = true := by
      simp only [getOccupiedGrid, normalizedVal,
        show gridMax grid01 = 1 from by decide,
        show grid01.val 0 0 = 1 from rfl]
      norm_num
    have hR : getOccupiedGridScaled grid01 false (13 / 20) 0 0 = false := by
      simp only [getOccupiedGridScaled, show grid01.val 0 0 = 1 from rfl]
      norm_num
    rw [hL, hR]
    simp

theorem claim_C10_witness : normalizedVal grid01 0 0 = (grid01.val 0 0 : ℚ) :=
  (claim_C10 grid01 0 0).1 (by decide)

/-- C1 (amended): the segments of Pass 1 followed by Pass 2 cover exactly the
occupied in-range cells (no omission, no spill); horizontal segments are
pairwise disjoint and vertical segments are pairwise disjoint; the only
possible double coverage is a cell shared by a horizontal segment of pixel
length 1 and a vertical segment (and such overlap does occur, see the
counterexample), so the cover is not a partition in general. -/
theorem claim_C1 (occ : Nat → Nat → Bool) (h w : Nat) :
    (∀ c : Nat × Nat,
      coveredB (aggregateHorizontal occ h w ++
        aggregateVertical occ h w (aggregateHorizontal occ h w)) c = true ↔
        (c.1 < h ∧ c.2 < w ∧ occ c.1 c.2 = true)) ∧
    (∀ s₁ ∈ aggregateHorizontal occ h w, ∀ s₂ ∈ aggregateHorizontal occ h w,
      s₁ ≠ s₂ → ∀ c : Nat × Nat, ¬(coversB s₁ c = true ∧ coversB s₂ c = true)) ∧
    (∀ s₁ ∈ aggregateVertical occ h w (aggregateHorizontal occ h w),
      ∀ s₂ ∈ aggregateVertical occ h w (aggregateHorizontal occ h w),
      s₁ ≠ s₂ → ∀ c : Nat × Nat, ¬(coversB s₁ c = true ∧ coversB s₂ c = true)) ∧
    (∀ s₁ ∈ aggregateHorizontal occ h w,
      ∀ s₂ ∈ aggregateVertical occ h w (aggregateHorizontal occ h w),
      (∃ c : Nat × Nat, coversB s₁ c = true ∧ coversB s₂ c = true) →
        s₁.lengthPx = 1) := by
  refine ⟨?_, ?_, ?_, ?_⟩
  · intro c
    constructor
    · intro hcov
      obtain ⟨s, hs, hc⟩ := List.any_eq_true.mp hcov
      rcases List.mem_append.mp hs with hsh | hsv
      · obtain ⟨hk, hclo, hchi, hpos, hlohi, hhw, hrun, hlp⟩ := hseg_props hsh
        rw [coversB_hbasic hk hclo hchi] at hc
        obtain ⟨hc1, hc2, hc3⟩ := hc
        refine ⟨hc1 ▸ hpos, by omega, ?_⟩
        rw [hc1]
        exact hrun c.2 hc2 hc3
      · obtain ⟨hk, hclo, hchi, hpos, hlohi, hhw, hrun, hlp⟩ := vseg_props hsv
        rw [coversB_vbasic hk hclo hchi] at hc
        obtain ⟨hc1, hc2, hc3⟩ := hc
        have hg := hrun c.1 hc2 hc3
        have hoccc := gridForVertical_le hg
        refine ⟨by omega, hc1 ▸ hpos, ?_⟩
        rw [hc1]
        exact hoccc
    · rintro ⟨hch, hcw, hoccc⟩
      obtain ⟨s, hs, hc⟩ := aggregateHorizontal_complete hch hcw hoccc
      exact List.any_eq_true.mpr ⟨s, List.mem_append.mpr (Or.inl hs), hc⟩
  · intro s₁ h₁ s₂ h₂ hne c
    exact aggregateHorizontal_disjoint h₁ h₂ hne c
  · intro s₁ h₁ s₂ h₂ hne c
    exact aggregateVertical_disjoint h₁ h₂ hne c
  · rintro s₁ h₁ s₂ h₂ ⟨c, hc₁, hc₂⟩
    obtain ⟨hk1, hclo1, hchi1, hpos1, hlohi1, hhw1, hrun1, hlp1⟩ := hseg_props h₁
    obtain ⟨hk2, hclo2, hchi2, hpos2, hlohi2, hhw2, hrun2, hlp2⟩ := vseg_props h₂
    rw [coversB_hbasic hk1 hclo1 hchi1] at hc₁
    rw [coversB_vbasic hk2 hclo2 hchi2] at hc₂
    have hg := hrun2 c.1 hc₂.2.1 hc₂.2.2
    rw [← hc₂.1] at hg
    have hchar := (gridForVertical_eq occ (aggregateHorizontal occ h w) c.1 c.2).mp hg
    by_contra hlen1
    have h1lt : 1 < s₁.lengthPx := by omega
    exact hchar.2 s₁ h₁ h1lt ⟨hc₁.1, hc₁.2.1, hc₁.2.2⟩

theorem claim_C1_counterexample :
    mask1x1 0 0 = true ∧
    ((aggregateHorizontal mask1x1 1 1 ++
      aggregateVertical mask1x1 1 1 (aggregateHorizontal mask1x1 1 1)).filter
        (fun s => coversB s (0, 0))).length = 2 := by
  constructor
  · rfl
  · simp [aggregateVertical, aggregateHorizontal, scanLine, runEnd, mask1x1,
      List.range_succ, gridForVertical, zeroRange, coversB]

theorem claim_C1_witness :
    coveredB (aggregateHorizontal mask1x1 1 1 ++
      aggregateVertical mask1x1 1 1 (aggregateHorizontal mask1x1 1 1)) (0, 0) = true ↔
      (0 < 1 ∧ 0 < 1 ∧ mask1x1 0 0 = true) :=
  (claim_C1 mask1x1 1 1).1 (0, 0)

/-- C7: Pass 2's working mask keeps exactly the occupied cells not lying in
any horizontal segment of pixel length greater than 1; hence no vertical
segment contains a cell of a multi-cell horizontal segment, while the cell
of every length-1 horizontal segment remains in the working mask and is also
covered by some vertical segment. -/
theorem claim_C7 (occ : Nat → Nat → Bool) (h w : Nat) :
    (∀ y x, gridForVertical occ (aggregateHorizontal occ h w) y x = true ↔
      (occ y x = true ∧ ∀ s ∈ aggregateHorizontal occ h w, 1 < s.lengthPx →
        ¬(y = s.pos ∧ s.lo ≤ x ∧ x ≤ s.hi))) ∧
    (∀ s₂ ∈ aggregateVertical occ h w (aggregateHorizontal occ h w),
      ∀ c : Nat × Nat, coversB s₂ c = true →
        ∀ s₁ ∈ aggregateHorizontal occ h w, 1 < s₁.lengthPx →
          coversB s₁ c = false) ∧
    (∀ s ∈ aggregateHorizontal occ h w, s.lengthPx = 1 →
      gridForVertical occ (aggregateHorizontal occ h w) s.pos s.lo = true ∧
      ∃ s₂ ∈ aggregateVertical occ h w (aggregateHorizontal occ h w),
        coversB s₂ (s.pos, s.lo) = true) := by
  refine ⟨?_, ?_, ?_⟩
  · intro y x
    exact gridForVertical_eq occ _ y x
  · intro s₂ h₂ c hc s₁ h₁ hlen
    obtain ⟨hk2, hclo2, hchi2, hpos2, hlohi2, hhw2, hrun2, hlp2⟩ := vseg_props h₂
    rw [coversB_vbasic hk2 hclo2 hchi2] at hc
    have hg := hrun2 c.1 hc.2.1 hc.2.2
    rw [← hc.1] at hg
    have hchar := (gridForVertical_eq occ (aggregateHorizontal occ h w) c.1 c.2).mp hg
    have hnot := hchar.2 s₁ h₁ hlen
    obtain ⟨hk1, hclo1, hchi1, _, _, _, _, _⟩ := hseg_props h₁
    cases hcb : coversB s₁ c with
    | false => rfl
    | true =>
        rw [coversB_hbasic hk1 hclo1 hchi1] at hcb
        exact absurd ⟨hcb.1, hcb.2.1, hcb.2.2⟩ hnot
  · intro s hs hlen
    obtain ⟨hk, hclo, hchi, hpos, hlohi, hhw, hrun, hlp⟩ := hseg_props hs
    have hoccell : occ s.pos s.lo = true := hrun s.lo (Nat.le_refl _) hlohi
    have hgfv : gridForVertical occ (aggregateHorizontal occ h w) s.pos s.lo = true := by
      rw [gridForVertical_eq]
      refine ⟨hoccell, ?_⟩
      intro s' hs' hlen' hcov
      have hne : s ≠ s' := by
        intro heq
        rw [← heq] at hlen'
        omega
      obtain ⟨hk', hclo', hchi', _, _, _, _, _⟩ := hseg_props hs'
      have hcov' : coversB s' (s.pos, s.lo) = true := by
        rw [coversB_hbasic hk' hclo' hchi']
        exact ⟨hcov.1, hcov.2.1, hcov.2.2⟩
      have hcovs : coversB s (s.pos, s.lo) = true := by
        rw [coversB_hbasic hk hclo hchi]
        exact ⟨rfl, Nat.le_refl _, hlohi⟩
      exact aggregateHorizontal_disjoint hs hs' hne (s.pos, s.lo) ⟨hcovs, hcov'⟩
    refine ⟨hgfv, ?_⟩
    have hlow : s.lo < w := by omega
    exact aggregateVertical_complete hpos hlow hgfv

theorem claim_C7_witness :
    gridForVertical mask1x1 (aggregateHorizontal mask1x1 1 1) 0 0 = true ∧
    ∃ s₂ ∈ aggregateVertical mask1x1 1 1 (aggregateHorizontal mask1x1 1 1),
      coversB s₂ (0, 0) = true := by
  have hmem : (⟨SegKind.horizontal, 0, 0, 0, none, none, 1⟩ : Segment) ∈
      aggregateHorizontal mask1x1 1 1 := by
    simp [aggregateHorizontal, scanLine, runEnd, mask1x1, List.range_succ]
  exact (claim_C7 mask1x1 1 1).2.2 ⟨SegKind.horizontal, 0, 0, 0, none, none, 1⟩ hmem rfl
